import Mathlib

/-!
Verification of the macos-fingerprint core pipeline.

This file gives a shallow embedding, in Lean 4, of the core of the
`macos_fingerprint` Python package — the structural diff engine
(`core/comparison.py`), the redaction/hashing layer and the
encryption/integrity envelope (`utils/crypto.py`), the storage round trip
(`core/storage.py`) and the collector registry (`collectors/base.py`) —
and proves the specified properties about these definitions.

Modelling conventions:
* JSON-like Python values are embedded as the inductive type `JValue`
  (JSON numbers restricted to integers; none of the verified code paths
  depends on float behaviour).
* Python dicts are embedded as association lists in insertion order with
  the keys distinct (Python dicts guarantee key uniqueness); assignment
  (`dictSet`) overwrites in place like Python assignment does.
* External cryptographic library primitives (`cryptography`'s AES-GCM and
  PBKDF2, `hashlib`'s HMAC) are modelled symbolically: a derived key is the
  pair of password and salt, and authenticated decryption succeeds exactly
  under the key and nonce used for encryption, which is the guarantee the
  library provides.  `hashlib.sha3_256` is implemented concretely
  (a full Keccak-f[1600] permutation) so the redaction layer is executable.
* `json.dumps(·, sort_keys=True)` is implemented concretely over `JValue`;
  the `dumps`/`loads` round trip through a file is modelled as the
  identity on the embedded document, which is Python's behaviour for the
  JSON-representable documents the claims quantify over.
-/

/-- Embedded JSON-like Python value (the dynamic documents the pipeline
manipulates): `None`, `bool`, `int`, `str`, `list`, `dict`. -/
inductive JValue where
  | null
  | bool (b : Bool)
  | num (n : Int)
  | str (s : String)
  | arr (xs : List JValue)
  | obj (kvs : List (String × JValue))

namespace JValue

mutual

def decEqJ (v₁ v₂ : JValue) : Decidable (v₁ = v₂) := by
  cases v₁ <;> cases v₂
  case null.null =>
    exact isTrue rfl
  case bool.bool a b =>
    by_cases hab : a = b
    · exact isTrue (by rw [hab])
    · exact isFalse (by simp [hab])
  case num.num a b =>
    by_cases hab : a = b
    · exact isTrue (by rw [hab])
    · exact isFalse (by simp [hab])
  case str.str a b =>
    by_cases hab : a = b
    · exact isTrue (by rw [hab])
    · exact isFalse (by simp [hab])
  case arr.arr a b =>
    cases decEqJList a b with
    | isTrue hab => exact isTrue (by rw [hab])
    | isFalse hab => exact isFalse (by simp [hab])
  case obj.obj a b =>
    cases decEqJObj a b with
    | isTrue hab => exact isTrue (by rw [hab])
    | isFalse hab => exact isFalse (by simp [hab])
  all_goals exact isFalse (fun hcon => JValue.noConfusion hcon)

def decEqJList (xs₁ xs₂ : List JValue) : Decidable (xs₁ = xs₂) :=
  match xs₁, xs₂ with
  | [], [] => isTrue rfl
  | [], _ :: _ => isFalse (fun hcon => List.noConfusion hcon)
  | _ :: _, [] => isFalse (fun hcon => List.noConfusion hcon)
  | x₁ :: t₁, x₂ :: t₂ =>
    match decEqJ x₁ x₂ with
    | isFalse hx => isFalse (by simp [hx])
    | isTrue hx =>
      match decEqJList t₁ t₂ with
      | isFalse ht => isFalse (by simp [ht])
      | isTrue ht => isTrue (by rw [hx, ht])

def decEqJObj (kvs₁ kvs₂ : List (String × JValue)) : Decidable (kvs₁ = kvs₂) :=
  match kvs₁, kvs₂ with
  | [], [] => isTrue rfl
  | [], _ :: _ => isFalse (fun hcon => List.noConfusion hcon)
  | _ :: _, [] => isFalse (fun hcon => List.noConfusion hcon)
  | (k₁, v₁) :: t₁, (k₂, v₂) :: t₂ =>
    if hk : k₁ = k₂ then
      match decEqJ v₁ v₂ with
      | isFalse hv => isFalse (by simp [hv])
      | isTrue hv =>
        match decEqJObj t₁ t₂ with
        | isFalse ht => isFalse (by simp [ht])
        | isTrue ht => isTrue (by rw [hk, hv, ht])
    else isFalse (by simp [hk])

end

instance : DecidableEq JValue := decEqJ

end JValue

/-- A Python dict holding JSON values, in insertion order. -/
abbrev JDict := List (String × JValue)

/-- Python `d[k]` / `d.get(k)`: the value bound to the first (unique)
occurrence of the key. -/
def lookupJ (kvs : JDict) (k : String) : Option JValue :=
  match kvs with
  | [] => none
  | (k', v) :: rest => if k' = k then some v else lookupJ rest k

/-- The keys of a dict, in insertion order. -/
def dictKeys (kvs : JDict) : List String := kvs.map Prod.fst

/-- Python dict assignment `d[k] = v`: overwrite in place if the key
exists, otherwise append. -/
def dictSet (kvs : JDict) (k : String) (v : JValue) : JDict :=
  match kvs with
  | [] => [(k, v)]
  | (k', v') :: rest =>
    if k' = k then (k, v) :: rest else (k', v') :: dictSet rest k v

/-- Python `d.pop(k)` effect on the dict: remove the binding of `k`. -/
def dictRemove (kvs : JDict) (k : String) : JDict :=
  kvs.filter (fun p => p.1 ≠ k)

theorem lookupJ_isSome_of_mem_keys {kvs : JDict} {k : String}
    (h : k ∈ dictKeys kvs) : ∃ v, lookupJ kvs k = some v := by
  induction kvs with
  | nil => simp [dictKeys] at h
  | cons p rest ih =>
    by_cases hk : p.1 = k
    · exact ⟨p.2, by simp [lookupJ, hk]⟩
    · have hmem : k ∈ dictKeys rest := by
        rcases List.mem_cons.mp h with h1 | h1
        · exact absurd h1.symm hk
        · exact h1
      rcases ih hmem with ⟨v, hv⟩
      exact ⟨v, by simpa [lookupJ, hk] using hv⟩

theorem mem_keys_of_lookupJ_isSome {kvs : JDict} {k : String} {v : JValue}
    (h : lookupJ kvs k = some v) : k ∈ dictKeys kvs := by
  induction kvs with
  | nil => simp [lookupJ] at h
  | cons p rest ih =>
    simp only [lookupJ] at h
    by_cases hk : p.1 = k
    · simp [dictKeys, hk.symm]
    · simp only [hk, if_false] at h
      exact List.mem_cons.mpr (Or.inr (ih h))

/-- A generic insertion sort by a boolean "less or equal" test, standing in
for Python's `sorted(xs, key=f)` (any sorted permutation satisfies the
specified output properties; tie order is not specified). -/
def insertLe {α : Type} (le : α → α → Bool) (x : α) : List α → List α
  | [] => [x]
  | y :: ys => if le x y then x :: y :: ys else y :: insertLe le x ys

def sortLe {α : Type} (le : α → α → Bool) : List α → List α
  | [] => []
  | x :: xs => insertLe le x (sortLe le xs)

theorem insertLe_perm {α : Type} (le : α → α → Bool) (x : α) (l : List α) :
    List.Perm (insertLe le x l) (x :: l) := by
  induction l with
  | nil => simp [insertLe]
  | cons y ys ih =>
    by_cases h : le x y
    · simp [insertLe, h]
    · simp only [insertLe, h, if_false]
      exact List.Perm.trans (List.Perm.cons y ih) (List.Perm.swap x y ys)

theorem sortLe_perm {α : Type} (le : α → α → Bool) (l : List α) :
    List.Perm (sortLe le l) l := by
  induction l with
  | nil => simp [sortLe]
  | cons x xs ih =>
    exact List.Perm.trans (insertLe_perm le x (sortLe le xs))
      (List.Perm.cons x ih)

theorem insertLe_pairwise {α : Type} (le : α → α → Bool)
    (htot : ∀ a b, le a b = false → le b a = true)
    (htrans : ∀ a b c, le a b = true → le b c = true → le a c = true)
    (x : α) (l : List α) (hl : l.Pairwise (fun a b => le a b = true)) :
    (insertLe le x l).Pairwise (fun a b => le a b = true) := by
  induction l with
  | nil => simp [insertLe]
  | cons y ys ih =>
    rcases List.pairwise_cons.mp hl with ⟨hy, hys⟩
    by_cases h : le x y
    · simp only [insertLe, h, if_true]
      refine List.pairwise_cons.mpr ⟨?_, hl⟩
      intro b hb
      rcases List.mem_cons.mp hb with rfl | hb1
      · exact h
      · exact htrans x y b h (hy b hb1)
    · simp only [insertLe, h, if_false]
      refine List.pairwise_cons.mpr ⟨?_, ih hys⟩
      intro b hb
      have hperm := insertLe_perm le x ys
      have hb2 : b ∈ x :: ys := hperm.mem_iff.mp hb
      rcases List.mem_cons.mp hb2 with hbx | hb3
      · rw [hbx]
        exact htot x y (by simpa using h)
      · exact hy b hb3

theorem sortLe_pairwise {α : Type} (le : α → α → Bool)
    (htot : ∀ a b, le a b = false → le b a = true)
    (htrans : ∀ a b c, le a b = true → le b c = true → le a c = true)
    (l : List α) :
    (sortLe le l).Pairwise (fun a b => le a b = true) := by
  induction l with
  | nil => simp [sortLe]
  | cons x xs ih => exact insertLe_pairwise le htot htrans x (sortLe le xs) ih

/-! ### Python string representations

`compare_lists` sorts by Python `str(·)` and canonicalizes container
elements via `json.dumps(·, sort_keys=True)`.  Both are embedded below.
Exotic character escapes of `repr`/JSON are modelled for the common
characters; this affects only the display form used as a sort key and as
a canonicalization key, not the structure of any claim. -/

/-- Escape a character the way Python `repr` does inside a
single-quoted string literal (common cases). -/
def pyEscapeChar (c : Char) : String :=
  if c = '\\' then "\\\\"
  else if c = Char.ofNat 39 then "\\" ++ String.singleton (Char.ofNat 39)
  else if c = Char.ofNat 10 then "\\n"
  else if c = Char.ofNat 13 then "\\r"
  else if c = Char.ofNat 9 then "\\t"
  else String.singleton c

/-- Python `repr` of a string (single-quoted form). -/
def pyReprString (s : String) : String :=
  String.singleton (Char.ofNat 39)
    ++ String.join (s.toList.map pyEscapeChar)
    ++ String.singleton (Char.ofNat 39)

mutual

/-- Python `repr(v)` for an embedded JSON value. -/
def pyRepr : JValue → String
  | .null => "None"
  | .bool true => "True"
  | .bool false => "False"
  | .num n => toString n
  | .str s => pyReprString s
  | .arr xs => "[" ++ pyReprList xs ++ "]"
  | .obj kvs => "\x7b" ++ pyReprObj kvs ++ "\x7d"

def pyReprList : List JValue → String
  | [] => ""
  | [x] => pyRepr x
  | x :: xs => pyRepr x ++ ", " ++ pyReprList xs

def pyReprObj : List (String × JValue) → String
  | [] => ""
  | [(k, v)] => pyReprString k ++ ": " ++ pyRepr v
  | (k, v) :: kvs => pyReprString k ++ ": " ++ pyRepr v ++ ", " ++ pyReprObj kvs

end

/-- Python `str(v)`: identity on strings, `repr` otherwise. -/
def pyStr : JValue → String
  | .str s => s
  | v => pyRepr v

/-- Escape a character the way `json.dumps` does (common cases). -/
def jsonEscapeChar (c : Char) : String :=
  if c = '\\' then "\\\\"
  else if c = '"' then "\\\""
  else if c = Char.ofNat 10 then "\\n"
  else if c = Char.ofNat 13 then "\\r"
  else if c = Char.ofNat 9 then "\\t"
  else String.singleton c

/-- JSON rendering of a string literal. -/
def jsonString (s : String) : String :=
  "\"" ++ String.join (s.toList.map jsonEscapeChar) ++ "\""

/-- Lexicographic comparison of character sequences by Unicode code
point: the order Python uses on `str`. -/
def charListLe : List Char → List Char → Bool
  | [], _ => true
  | _ :: _, [] => false
  | a :: as, b :: bs =>
    if a.val.toNat < b.val.toNat then true
    else if b.val.toNat < a.val.toNat then false
    else charListLe as bs

/-- Boolean string order used for `sorted` and for `sort_keys`:
Python `<=` on strings. -/
def strLe (a b : String) : Bool := charListLe a.toList b.toList

theorem charListLe_total :
    forall a b, charListLe a b = false → charListLe b a = true := by
  intro a
  induction a with
  | nil => intro b h; simp [charListLe] at h
  | cons x xs ih =>
    intro b h
    cases b with
    | nil => simp [charListLe]
    | cons y ys =>
      simp only [charListLe] at h ⊢
      by_cases h1 : x.val.toNat < y.val.toNat
      · simp [h1] at h
      · by_cases h2 : y.val.toNat < x.val.toNat
        · simp [h2]
        · simp only [h1, h2, if_false] at h ⊢
          have := ih ys h
          simp [this]

theorem charListLe_trans :
    forall a b c, charListLe a b = true → charListLe b c = true →
      charListLe a c = true := by
  intro a
  induction a with
  | nil => intro b c _ _; simp [charListLe]
  | cons x xs ih =>
    intro b c h1 h2
    cases b with
    | nil => simp [charListLe] at h1
    | cons y ys =>
      cases c with
      | nil => simp [charListLe] at h2
      | cons z zs =>
        simp only [charListLe] at h1 h2 ⊢
        by_cases hxy : x.val.toNat < y.val.toNat
        · by_cases hyz : y.val.toNat < z.val.toNat
          · have : x.val.toNat < z.val.toNat := Nat.lt_trans hxy hyz
            simp [this]
          · by_cases hzy : z.val.toNat < y.val.toNat
            · simp [hzy] at h2
              exact absurd h2 hyz
            · have hyez : y.val.toNat = z.val.toNat := by omega
              have : x.val.toNat < z.val.toNat := by omega
              simp [this]
        · by_cases hyx : y.val.toNat < x.val.toNat
          · simp [hxy, hyx] at h1
          · have hxey : x.val.toNat = y.val.toNat := by omega
            by_cases hyz : y.val.toNat < z.val.toNat
            · have : x.val.toNat < z.val.toNat := by omega
              simp [this]
            · by_cases hzy : z.val.toNat < y.val.toNat
              · simp [hyz, hzy] at h2
              · have hxz : ¬ x.val.toNat < z.val.toNat := by omega
                have hzx : ¬ z.val.toNat < x.val.toNat := by omega
                simp only [hxy, hyx, if_false] at h1
                simp only [hyz, hzy, if_false] at h2
                simp only [hxz, hzx, if_false]
                exact ih ys zs h1 h2

theorem strLe_total (a b : String) (h : strLe a b = false) :
    strLe b a = true :=
  charListLe_total _ _ h

theorem strLe_trans (a b c : String) (h1 : strLe a b = true)
    (h2 : strLe b c = true) : strLe a c = true :=
  charListLe_trans _ _ _ h1 h2

/-- Join already-serialized dict entries with JSON's default separators. -/
def renderPairs : List (String × String) → String
  | [] => ""
  | [(k, s)] => jsonString k ++ ": " ++ s
  | (k, s) :: rest => jsonString k ++ ": " ++ s ++ ", " ++ renderPairs rest

mutual

/-- `json.dumps(v, sort_keys=True)` with the default separators:
the canonical serialization the source uses to make nested dict/list
elements hashable and to serialize documents for hashing/encryption.
Keys of each object are emitted in sorted order; serializing the values
before sorting the pairs is equivalent since the sort inspects keys only. -/
def dumps : JValue → String
  | .null => "null"
  | .bool true => "true"
  | .bool false => "false"
  | .num n => toString n
  | .str s => jsonString s
  | .arr xs => "[" ++ dumpsList xs ++ "]"
  | .obj kvs =>
    "\x7b" ++
      renderPairs (sortLe (fun p q => strLe p.1 q.1) (dumpsPairs kvs)) ++
      "\x7d"

def dumpsList : List JValue → String
  | [] => ""
  | [x] => dumps x
  | x :: xs => dumps x ++ ", " ++ dumpsList xs

def dumpsPairs : List (String × JValue) → List (String × String)
  | [] => []
  | (k, v) :: kvs => (k, dumps v) :: dumpsPairs kvs

end

/-! ### SHA3-256 (`hashlib.sha3_256`)

`hash_sensitive_value` delegates to `hashlib.new("sha3_256")`.  The
Keccak-f[1600] permutation and the SHA3 sponge (rate 136 bytes, domain
suffix `0x06`) are implemented here concretely over `Nat`, with 64-bit
lanes kept reduced modulo `2^64`. -/

def u64mask : Nat := 2 ^ 64 - 1

/-- Rotate a 64-bit lane left by `n` (0 ≤ n < 64). -/
def rotl64 (x n : Nat) : Nat :=
  ((x <<< n) ||| (x >>> (64 - n))) &&& u64mask

/-- Keccak state: 25 lanes, lane `(x, y)` stored at index `x + 5·y`. -/
abbrev KState := List Nat

/-- Lane `(x, y)` of the state (indices taken mod 5). -/
def kGet (a : KState) (x y : Nat) : Nat := a.getD (x % 5 + 5 * (y % 5)) 0

/-- Materialize a state from a lane-valued function. -/
def kOfFn (f : Nat → Nat → Nat) : KState :=
  (List.range 25).map (fun l => f (l % 5) (l / 5))

def kTheta (a : KState) : KState :=
  let c := (List.range 5).map (fun x =>
    kGet a x 0 ^^^ kGet a x 1 ^^^ kGet a x 2 ^^^ kGet a x 3 ^^^ kGet a x 4)
  let d := (List.range 5).map (fun x =>
    c.getD ((x + 4) % 5) 0 ^^^ rotl64 (c.getD ((x + 1) % 5) 0) 1)
  kOfFn (fun x y => kGet a x y ^^^ d.getD x 0)

/-- The ρ rotation offset for lane `(x, y)`. -/
def rhoOff (x y : Nat) : Nat :=
  (([[0, 36, 3, 41, 18],
     [1, 44, 10, 45, 2],
     [62, 6, 43, 15, 61],
     [28, 55, 25, 21, 56],
     [27, 20, 39, 8, 14]].getD x []).getD y 0)

/-- Combined ρ and π steps: `B[y, 2x+3y] = rotl(A[x, y], ρ[x, y])`,
written by inverting the index map (`3·(Y + 2·X) ≡ x (mod 5)`). -/
def kRhoPi (a : KState) : KState :=
  kOfFn (fun X Y =>
    let x := (3 * (Y + 2 * X)) % 5
    rotl64 (kGet a x X) (rhoOff x X))

def kChi (b : KState) : KState :=
  kOfFn (fun x y =>
    kGet b x y ^^^ ((kGet b ((x + 1) % 5) y ^^^ u64mask) &&& kGet b ((x + 2) % 5) y))

def kIota (rc : Nat) (a : KState) : KState :=
  match a with
  | [] => []
  | a00 :: rest => (a00 ^^^ rc) :: rest

def keccakRoundConstants : List Nat :=
  [1, 32898, 9223372036854808714, 9223372039002292224, 32907, 2147483649,
   9223372039002292353, 9223372036854808585, 138, 136, 2147516425,
   2147483658, 2147516555, 9223372036854775947, 9223372036854808713,
   9223372036854808579, 9223372036854808578, 9223372036854775936, 32778,
   9223372039002259466, 9223372039002292353, 9223372036854808704,
   2147483649, 9223372039002292232]

def keccakF : KState → KState :=
  fun a =>
    keccakRoundConstants.foldl
      (fun st rc => kIota rc (kChi (kRhoPi (kTheta st)))) a

/-- Little-endian 64-bit lane `i` of a 136-byte block. -/
def laneOfBytes (bs : List Nat) (i : Nat) : Nat :=
  (List.range 8).foldl (fun acc j => acc + ((bs.getD (8 * i + j) 0) <<< (8 * j))) 0

/-- Absorb one 136-byte block and permute. -/
def absorbBlock (st : KState) (bs : List Nat) : KState :=
  keccakF (kOfFn (fun x y =>
    let l := x + 5 * y
    if l < 17 then kGet st x y ^^^ laneOfBytes bs l else kGet st x y))

/-- Split a byte list into 136-byte blocks. -/
def blocks136 (l : List Nat) : List (List Nat) :=
  if h : l = [] then []
  else l.take 136 :: blocks136 (l.drop 136)
termination_by l.length
decreasing_by
  simp only [List.length_drop]
  have : 0 < l.length := List.length_pos.mpr h
  omega

/-- SHA3 `pad10*1` padding with domain suffix `0x06` to a multiple of
the 136-byte rate. -/
def sha3pad (msg : List Nat) : List Nat :=
  let m := msg ++ [0x06]
  let z := (136 - m.length % 136) % 136
  let p := m ++ List.replicate z 0
  p.dropLast ++ [p.getLastD 0 ^^^ 0x80]

/-- The 32-byte SHA3-256 digest of a byte string. -/
def sha3_256bytes (msg : List Nat) : List Nat :=
  let st := (blocks136 (sha3pad msg)).foldl absorbBlock (List.replicate 25 0)
  (List.range 32).map (fun i =>
    (kGet st (i / 8 % 5) (i / 8 / 5) >>> (8 * (i % 8))) &&& 0xff)

def hexChar (n : Nat) : Char := "0123456789abcdef".toList.getD n '?'

/-- Lowercase hex rendering of a byte list (`hexdigest`). -/
def bytesToHex (bs : List Nat) : String :=
  String.mk (bs.flatMap (fun b => [hexChar (b / 16 % 16), hexChar (b % 16)]))

/-- The UTF-8 bytes of a string (`value.encode("utf-8")`). -/
def utf8Bytes (s : String) : List Nat := s.toUTF8.toList.map UInt8.toNat

/-- `hashlib.sha3_256(value.encode("utf-8")).hexdigest()`. -/
def sha3hex (s : String) : String := bytesToHex (sha3_256bytes (utf8Bytes s))

/-! ### Severity classification (`core/comparison.py`) -/

/-- Severity levels for detected changes. -/
inductive ChangeSeverity where
  | critical
  | high
  | medium
  | low
deriving DecidableEq

/-- Types of changes detected. -/
inductive ChangeType where
  | added
  | removed
  | modified
deriving DecidableEq

def critical_collectors : List String :=
  ["SecuritySettingsCollector", "GatekeeperCollector", "SSHConfigCollector"]

def high_collectors : List String :=
  ["KernelExtensionsCollector", "LaunchAgentsCollector",
   "UserAccountsCollector", "NetworkConfigCollector"]

/-- `classify_severity`: the static severity policy table. -/
def classify_severity (collector_name : String) (change_type : ChangeType) :
    ChangeSeverity :=
  if collector_name ∈ critical_collectors then .critical
  else if collector_name ∈ high_collectors then .high
  else if change_type = .removed then .medium
  else .low

/-! ### List comparison (`compare_lists`)

`_make_hashable` turns dicts and lists into their canonical JSON dump so
they can be used as `Counter` keys; primitives are used as-is.  Python's
`Counter`/`set` identify `True` with `1` and `False` with `0` (equal and
equal-hashed), so booleans are normalized to their integer value in the
embedded key type. -/

/-- The Counter-key universe: what `_make_hashable` can return, up to
Python `==`/`hash` identification. -/
inductive HKey where
  | nullK
  | intK (n : Int)
  | strK (s : String)
deriving DecidableEq

/-- `_make_hashable(item)`. -/
def makeHashable : JValue → HKey
  | .null => .nullK
  | .bool b => .intK (if b then 1 else 0)
  | .num n => .intK n
  | .str s => .strK s
  | .arr xs => .strK (dumps (.arr xs))
  | .obj kvs => .strK (dumps (.obj kvs))

/-- Python `str` of a Counter key, as used by `sorted(all_items, key=str)`.
(This only fixes the order in which the per-key segments are generated;
the output lists are re-sorted by `str` of the original element, so the
claims do not depend on this order.) -/
def keyStr : HKey → String
  | .nullK => "None"
  | .intK n => toString n
  | .strK s => s

/-- Number of occurrences counted under Counter key `k`
(`Counter` built through `_make_hashable`). -/
def countKey (items : List JValue) (k : HKey) : Nat :=
  items.countP (fun x => decide (makeHashable x = k))

/-- `key_to_orig[k]`: the mapping is filled while counting `baseline`
then `current`, each assignment overwriting the previous one, so it holds
the last traversed element with key `k`. -/
def lastWithKey (items : List JValue) (k : HKey) : Option JValue :=
  items.foldl (fun acc x => if makeHashable x = k then some x else acc) none

/-- Sort key for the output lists: `sorted(·, key=str)`. -/
def jvalLe (a b : JValue) : Bool := strLe (pyStr a) (pyStr b)

/-- The iteration order of `sorted(set(baseline_counts) | set(current_counts),
key=str)`. -/
def allKeysOf (baseline current : List JValue) : List HKey :=
  sortLe (fun a b => strLe (keyStr a) (keyStr b))
    (((baseline ++ current).map makeHashable).dedup)

/-- Result of `compare_lists`. -/
structure ListDiff where
  added : List JValue
  removed : List JValue
deriving DecidableEq

/-- `current_counts.get(item, 0) - baseline_counts.get(item, 0)`. -/
def diffCount (baseline current : List JValue) (k : HKey) : Int :=
  (countKey current k : Int) - (countKey baseline k : Int)

/-- What one iteration of the `for item in sorted(all_items, key=str)` loop
appends to `added` for key `k` (`key_to_orig[item]` repeated `diff` times
when `diff > 0`). -/
def addedSeg (baseline current : List JValue) (k : HKey) : List JValue :=
  match lastWithKey (baseline ++ current) k with
  | none => []
  | some orig =>
    if 0 < diffCount baseline current k then
      List.replicate (diffCount baseline current k).toNat orig
    else []

/-- What one iteration of the loop appends to `removed` for key `k`
(`key_to_orig[item]` repeated `abs(diff)` times when `diff < 0`). -/
def removedSeg (baseline current : List JValue) (k : HKey) : List JValue :=
  match lastWithKey (baseline ++ current) k with
  | none => []
  | some orig =>
    if diffCount baseline current k < 0 then
      List.replicate (-(diffCount baseline current k)).toNat orig
    else []

/-- `compare_lists(baseline, current)`: duplicate-aware multiset diff.
The single Python loop extending `added` and `removed` is rendered as the
concatenation of its per-key contributions over the same key sequence,
which builds the same two lists; both are finally re-sorted by `str`. -/
def compare_lists (baseline current : List JValue) : ListDiff :=
  let keys := allKeysOf baseline current
  ⟨sortLe jvalLe (keys.flatMap (addedSeg baseline current)),
   sortLe jvalLe (keys.flatMap (removedSeg baseline current))⟩

theorem lastWithKey_aux (k : HKey) :
    ∀ (items : List JValue) (acc : Option JValue) (x : JValue),
      items.foldl (fun a y => if makeHashable y = k then some y else a) acc
        = some x →
      acc = some x ∨ (makeHashable x = k ∧ x ∈ items) := by
  intro items
  induction items with
  | nil => intro acc x h; left; exact h
  | cons y ys ih =>
    intro acc x h
    simp only [List.foldl_cons] at h
    by_cases hy : makeHashable y = k
    · rw [if_pos hy] at h
      rcases ih (some y) x h with h1 | h1
      · right
        injection h1 with h1
        rw [← h1]
        exact ⟨hy, List.mem_cons_self y ys⟩
      · right; exact ⟨h1.1, List.mem_cons_of_mem y h1.2⟩
    · rw [if_neg hy] at h
      rcases ih acc x h with h1 | h1
      · left; exact h1
      · right; exact ⟨h1.1, List.mem_cons_of_mem y h1.2⟩

theorem lastWithKey_key_mem {items : List JValue} {k : HKey} {x : JValue}
    (h : lastWithKey items k = some x) : makeHashable x = k ∧ x ∈ items := by
  rcases lastWithKey_aux k items none x h with h1 | h1
  · exact absurd h1 (by simp)
  · exact h1

theorem lastWithKey_isSome_aux (k : HKey) :
    ∀ (items : List JValue) (acc : Option JValue),
      acc.isSome = true ∨ (∃ x ∈ items, makeHashable x = k) →
      (items.foldl (fun a y => if makeHashable y = k then some y else a)
        acc).isSome = true := by
  intro items
  induction items with
  | nil =>
    intro acc h
    rcases h with h | ⟨x, hx, _⟩
    · exact h
    · simp at hx
  | cons y ys ih =>
    intro acc h
    simp only [List.foldl_cons]
    by_cases hy : makeHashable y = k
    · rw [if_pos hy]
      exact ih (some y) (Or.inl rfl)
    · rw [if_neg hy]
      apply ih acc
      rcases h with h | ⟨x, hx, hkx⟩
      · exact Or.inl h
      · rcases List.mem_cons.mp hx with h2 | h2
        · exact absurd (h2 ▸ hkx) hy
        · exact Or.inr ⟨x, h2, hkx⟩

theorem lastWithKey_isSome {items : List JValue} {k : HKey} {x : JValue}
    (hx : x ∈ items) (hk : makeHashable x = k) :
    (lastWithKey items k).isSome = true :=
  lastWithKey_isSome_aux k items none (Or.inr ⟨x, hx, hk⟩)

theorem countP_flatMap_segments (k : HKey) :
    ∀ (keys : List HKey) (f : HKey → List JValue),
      keys.Nodup →
      (∀ k', ∀ x ∈ f k', makeHashable x = k') →
      (keys.flatMap f).countP (fun x => decide (makeHashable x = k))
        = if k ∈ keys then (f k).length else 0 := by
  intro keys
  induction keys with
  | nil => intro f _ _; simp
  | cons k' rest ih =>
    intro f hnd hf
    rcases List.nodup_cons.mp hnd with ⟨hk', hrest⟩
    simp only [List.flatMap_cons, List.countP_append]
    by_cases hkk : k' = k
    · subst hkk
      have h1 : (f k').countP (fun x => decide (makeHashable x = k')) =
          (f k').length :=
        List.countP_eq_length.mpr (fun a ha => by
          simp [hf k' a ha])
      have h2 : (rest.flatMap f).countP
          (fun x => decide (makeHashable x = k')) = 0 := by
        rw [ih f hrest hf, if_neg hk']
      simp [h1, h2]
    · have h1 : (f k').countP (fun x => decide (makeHashable x = k)) = 0 :=
        List.countP_eq_zero.mpr (fun a ha => by
          simp [hf k' a ha]
          intro hc
          exact hkk hc)
      rw [h1, ih f hrest hf]
      have : (k ∈ k' :: rest) = (k ∈ rest) := by
        simp [List.mem_cons]
        intro hc
        exact absurd hc.symm hkk
      by_cases hm : k ∈ rest
      · simp [hm, List.mem_cons.mpr (Or.inr hm)]
      · have hm2 : ¬ (k ∈ k' :: rest) := by
          intro hc
          rcases List.mem_cons.mp hc with hc | hc
          · exact hkk hc.symm
          · exact hm hc
        simp [hm, hm2]

theorem allKeysOf_nodup (baseline current : List JValue) :
    (allKeysOf baseline current).Nodup := by
  have hperm := sortLe_perm (fun a b => strLe (keyStr a) (keyStr b))
    (((baseline ++ current).map makeHashable).dedup)
  exact (List.Perm.nodup_iff hperm).mpr (List.nodup_dedup _)

theorem mem_allKeysOf_iff (baseline current : List JValue) (k : HKey) :
    k ∈ allKeysOf baseline current ↔
      ∃ x ∈ baseline ++ current, makeHashable x = k := by
  have hperm := sortLe_perm (fun a b => strLe (keyStr a) (keyStr b))
    (((baseline ++ current).map makeHashable).dedup)
  unfold allKeysOf
  rw [hperm.mem_iff, List.mem_dedup, List.mem_map]

theorem addedSeg_key (baseline current : List JValue) (k : HKey) :
    ∀ x ∈ addedSeg baseline current k, makeHashable x = k := by
  intro x hx
  cases hlast : lastWithKey (baseline ++ current) k with
  | none => simp [addedSeg, hlast] at hx
  | some orig =>
    simp only [addedSeg, hlast] at hx
    by_cases hd : 0 < diffCount baseline current k
    · rw [if_pos hd] at hx
      rw [List.eq_of_mem_replicate hx]
      exact (lastWithKey_key_mem hlast).1
    · rw [if_neg hd] at hx
      simp at hx

theorem removedSeg_key (baseline current : List JValue) (k : HKey) :
    ∀ x ∈ removedSeg baseline current k, makeHashable x = k := by
  intro x hx
  cases hlast : lastWithKey (baseline ++ current) k with
  | none => simp [removedSeg, hlast] at hx
  | some orig =>
    simp only [removedSeg, hlast] at hx
    by_cases hd : diffCount baseline current k < 0
    · rw [if_pos hd] at hx
      rw [List.eq_of_mem_replicate hx]
      exact (lastWithKey_key_mem hlast).1
    · rw [if_neg hd] at hx
      simp at hx

theorem addedSeg_mem (baseline current : List JValue) (k : HKey) :
    ∀ x ∈ addedSeg baseline current k, x ∈ baseline ++ current := by
  intro x hx
  cases hlast : lastWithKey (baseline ++ current) k with
  | none => simp [addedSeg, hlast] at hx
  | some orig =>
    simp only [addedSeg, hlast] at hx
    by_cases hd : 0 < diffCount baseline current k
    · rw [if_pos hd] at hx
      rw [List.eq_of_mem_replicate hx]
      exact (lastWithKey_key_mem hlast).2
    · rw [if_neg hd] at hx
      simp at hx

theorem removedSeg_mem (baseline current : List JValue) (k : HKey) :
    ∀ x ∈ removedSeg baseline current k, x ∈ baseline ++ current := by
  intro x hx
  cases hlast : lastWithKey (baseline ++ current) k with
  | none => simp [removedSeg, hlast] at hx
  | some orig =>
    simp only [removedSeg, hlast] at hx
    by_cases hd : diffCount baseline current k < 0
    · rw [if_pos hd] at hx
      rw [List.eq_of_mem_replicate hx]
      exact (lastWithKey_key_mem hlast).2
    · rw [if_neg hd] at hx
      simp at hx

theorem addedSeg_length (baseline current : List JValue) (k : HKey)
    (hmem : k ∈ allKeysOf baseline current) :
    (addedSeg baseline current k).length
      = countKey current k - countKey baseline k := by
  rcases (mem_allKeysOf_iff baseline current k).mp hmem with ⟨x, hx, hk⟩
  have hsome := lastWithKey_isSome hx hk
  rcases Option.isSome_iff_exists.mp hsome with ⟨orig, horig⟩
  simp only [addedSeg, horig]
  by_cases hd : 0 < diffCount baseline current k
  · rw [if_pos hd, List.length_replicate]
    unfold diffCount at hd ⊢
    omega
  · rw [if_neg hd]
    unfold diffCount at hd
    simp only [List.length_nil]
    omega

theorem removedSeg_length (baseline current : List JValue) (k : HKey)
    (hmem : k ∈ allKeysOf baseline current) :
    (removedSeg baseline current k).length
      = countKey baseline k - countKey current k := by
  rcases (mem_allKeysOf_iff baseline current k).mp hmem with ⟨x, hx, hk⟩
  have hsome := lastWithKey_isSome hx hk
  rcases Option.isSome_iff_exists.mp hsome with ⟨orig, horig⟩
  simp only [removedSeg, horig]
  by_cases hd : diffCount baseline current k < 0
  · rw [if_pos hd, List.length_replicate]
    unfold diffCount at hd ⊢
    omega
  · rw [if_neg hd]
    unfold diffCount at hd
    simp only [List.length_nil]
    omega

theorem countKey_eq_zero_of_not_mem_allKeys
    {baseline current : List JValue} {k : HKey}
    (h : k ∉ allKeysOf baseline current) :
    countKey baseline k = 0 ∧ countKey current k = 0 := by
  rw [mem_allKeysOf_iff] at h
  push_neg at h
  constructor
  · exact List.countP_eq_zero.mpr (fun a ha => by
      simpa using h a (List.mem_append.mpr (Or.inl ha)))
  · exact List.countP_eq_zero.mpr (fun a ha => by
      simpa using h a (List.mem_append.mpr (Or.inr ha)))

theorem compare_lists_counts (baseline current : List JValue) (k : HKey) :
    countKey (compare_lists baseline current).added k
      = countKey current k - countKey baseline k
    ∧ countKey (compare_lists baseline current).removed k
      = countKey baseline k - countKey current k := by
  have hnodup := allKeysOf_nodup baseline current
  constructor
  · have hperm := sortLe_perm jvalLe
      ((allKeysOf baseline current).flatMap (addedSeg baseline current))
    unfold compare_lists countKey
    rw [hperm.countP_eq]
    rw [countP_flatMap_segments k (allKeysOf baseline current)
      (addedSeg baseline current) hnodup (addedSeg_key baseline current)]
    by_cases hm : k ∈ allKeysOf baseline current
    · rw [if_pos hm]
      exact addedSeg_length baseline current k hm
    · rw [if_neg hm]
      rcases countKey_eq_zero_of_not_mem_allKeys hm with ⟨h1, h2⟩
      unfold countKey at h1 h2
      omega
  · have hperm := sortLe_perm jvalLe
      ((allKeysOf baseline current).flatMap (removedSeg baseline current))
    unfold compare_lists countKey
    rw [hperm.countP_eq]
    rw [countP_flatMap_segments k (allKeysOf baseline current)
      (removedSeg baseline current) hnodup (removedSeg_key baseline current)]
    by_cases hm : k ∈ allKeysOf baseline current
    · rw [if_pos hm]
      exact removedSeg_length baseline current k hm
    · rw [if_neg hm]
      rcases countKey_eq_zero_of_not_mem_allKeys hm with ⟨h1, h2⟩
      unfold countKey at h1 h2
      omega

theorem jvalLe_total (a b : JValue) (h : jvalLe a b = false) :
    jvalLe b a = true :=
  strLe_total _ _ h

theorem jvalLe_trans (a b c : JValue) (h1 : jvalLe a b = true)
    (h2 : jvalLe b c = true) : jvalLe a c = true :=
  strLe_trans _ _ _ h1 h2

theorem compare_lists_added_mem (baseline current : List JValue) :
    ∀ x ∈ (compare_lists baseline current).added, x ∈ baseline ++ current := by
  intro x hx
  have hperm := sortLe_perm jvalLe
    ((allKeysOf baseline current).flatMap (addedSeg baseline current))
  have hx2 := hperm.mem_iff.mp hx
  rcases List.mem_flatMap.mp hx2 with ⟨k, _, hxk⟩
  exact addedSeg_mem baseline current k x hxk

theorem compare_lists_removed_mem (baseline current : List JValue) :
    ∀ x ∈ (compare_lists baseline current).removed, x ∈ baseline ++ current := by
  intro x hx
  have hperm := sortLe_perm jvalLe
    ((allKeysOf baseline current).flatMap (removedSeg baseline current))
  have hx2 := hperm.mem_iff.mp hx
  rcases List.mem_flatMap.mp hx2 with ⟨k, _, hxk⟩
  exact removedSeg_mem baseline current k x hxk

theorem compare_lists_added_sorted (baseline current : List JValue) :
    (compare_lists baseline current).added.Pairwise
      (fun a b => jvalLe a b = true) :=
  sortLe_pairwise jvalLe jvalLe_total jvalLe_trans _

theorem compare_lists_removed_sorted (baseline current : List JValue) :
    (compare_lists baseline current).removed.Pairwise
      (fun a b => jvalLe a b = true) :=
  sortLe_pairwise jvalLe jvalLe_total jvalLe_trans _

/-- C1: for every pair of lists, `compare_lists` returns the multiset
differences — an element (identified by its `_make_hashable` canonical
key, i.e. nested dicts/lists compared by sorted-key JSON serialization)
appears in `added` exactly `count_current − count_baseline` times when
that is positive and in `removed` exactly `count_baseline − count_current`
times when that is positive (truncated subtraction states both at once);
every returned element is one of the original structured input elements;
both output lists are sorted by the lexicographic order of the elements'
Python string representation; and
`compare_lists(["x","x","y"], ["x","y","y"]) == ⟨added ["y"], removed ["x"]⟩`. -/
theorem compare_lists_multiset_diff :
    (∀ baseline current : List JValue, ∀ k : HKey,
      countKey (compare_lists baseline current).added k
        = countKey current k - countKey baseline k
      ∧ countKey (compare_lists baseline current).removed k
        = countKey baseline k - countKey current k)
    ∧ (∀ baseline current : List JValue,
        ∀ x ∈ (compare_lists baseline current).added, x ∈ baseline ++ current)
    ∧ (∀ baseline current : List JValue,
        ∀ x ∈ (compare_lists baseline current).removed, x ∈ baseline ++ current)
    ∧ (∀ baseline current : List JValue,
        (compare_lists baseline current).added.Pairwise
          (fun a b => jvalLe a b = true)
        ∧ (compare_lists baseline current).removed.Pairwise
          (fun a b => jvalLe a b = true))
    ∧ compare_lists [.str "x", .str "x", .str "y"] [.str "x", .str "y", .str "y"]
        = ⟨[.str "y"], [.str "x"]⟩ :=
  ⟨fun b c k => compare_lists_counts b c k,
   compare_lists_added_mem,
   compare_lists_removed_mem,
   fun b c => ⟨compare_lists_added_sorted b c, compare_lists_removed_sorted b c⟩,
   by decide⟩

/-- Witness for `compare_lists_multiset_diff`, instantiating its quantified
parts (including the membership implications) at concrete input. -/
theorem compare_lists_multiset_diff_witness :
    countKey (compare_lists [] [JValue.str "a"]).added (.strK "a") = 1
    ∧ JValue.str "a" ∈ ([] : List JValue) ++ [JValue.str "a"] :=
  ⟨(compare_lists_multiset_diff.1 [] [JValue.str "a"] (.strK "a")).1,
   compare_lists_multiset_diff.2.1 [] [JValue.str "a"] (JValue.str "a")
     (by decide)⟩

/-- C2: `classify_severity` implements the exact static table: the three
security collectors are `critical` for every change type, the four
system-integrity collectors are `high` for every change type, and every
other collector name maps to `medium` exactly for `REMOVED` and to `low`
for `ADDED` and `MODIFIED`. -/
theorem classify_severity_table :
    (∀ ct : ChangeType,
      classify_severity "SecuritySettingsCollector" ct = .critical
      ∧ classify_severity "GatekeeperCollector" ct = .critical
      ∧ classify_severity "SSHConfigCollector" ct = .critical
      ∧ classify_severity "KernelExtensionsCollector" ct = .high
      ∧ classify_severity "LaunchAgentsCollector" ct = .high
      ∧ classify_severity "UserAccountsCollector" ct = .high
      ∧ classify_severity "NetworkConfigCollector" ct = .high)
    ∧ (∀ name : String,
        name ∉ critical_collectors → name ∉ high_collectors →
          classify_severity name .removed = .medium
          ∧ classify_severity name .added = .low
          ∧ classify_severity name .modified = .low) := by
  constructor
  · intro ct
    refine ⟨?_, ?_, ?_, ?_, ?_, ?_, ?_⟩ <;>
      simp [classify_severity, critical_collectors, high_collectors]
  · intro name hc hh
    refine ⟨?_, ?_, ?_⟩ <;>
      simp [classify_severity, hc, hh]

/-- Witness for `classify_severity_table` at a collector outside both
fixed name lists. -/
theorem classify_severity_table_witness :
    classify_severity "AnyOtherCollector" .removed = .medium
    ∧ classify_severity "AnyOtherCollector" .added = .low :=
  ⟨(classify_severity_table.2 "AnyOtherCollector" (by decide) (by decide)).1,
   (classify_severity_table.2 "AnyOtherCollector" (by decide) (by decide)).2.1⟩

/-! ### Recursive dict comparison (`compare_dicts`) -/

theorem sizeOf_lookupJ {kvs : JDict} {k : String} {v : JValue}
    (h : lookupJ kvs k = some v) : sizeOf v < sizeOf kvs := by
  induction kvs with
  | nil => simp [lookupJ] at h
  | cons p rest ih =>
    rcases p with ⟨k', v'⟩
    simp only [lookupJ] at h
    by_cases hk : k' = k
    · rw [if_pos hk] at h
      injection h with h
      subst h
      simp only [List.cons.sizeOf_spec, Prod.mk.sizeOf_spec]
      omega
    · rw [if_neg hk] at h
      have := ih h
      simp only [List.cons.sizeOf_spec]
      omega

/-- One entry of a `compare_dicts` result. -/
inductive DictChange where
  | addedV (value : JValue)
  | removedV (value : JValue)
  | modifiedList (added removed : List JValue)
  | modifiedDict (changes : List (String × DictChange))
  | modifiedScalar (baseline current : JValue)

/-- `sorted(set(baseline.keys()) | set(current.keys()), key=str)` — keys
of embedded dicts are strings, so `key=str` is the identity on them. -/
def unionKeysSorted (b c : JDict) : List String :=
  sortLe strLe ((dictKeys b ++ dictKeys c).dedup)

mutual

/-- `compare_dicts(baseline, current)`: recursive key-by-key comparison
over the sorted union of keys. -/
def compare_dicts (baseline current : JDict) : List (String × DictChange) :=
  cdGo (unionKeysSorted baseline current) baseline current
termination_by (sizeOf baseline, (unionKeysSorted baseline current).length + 1)
decreasing_by
  apply Prod.Lex.right
  omega

/-- The `for key in all_keys` loop of `compare_dicts`, emitting the
change entry for each key in turn. -/
def cdGo : List String → JDict → JDict → List (String × DictChange)
  | [], _, _ => []
  | k :: ks, b, c =>
    (match hb : lookupJ b k, hc : lookupJ c k with
     | none, some v => [(k, .addedV v)]
     | some v, none => [(k, .removedV v)]
     | some bv, some cv =>
       if bv = cv then []
       else
         match hbv : bv, hcv : cv with
         | .arr bl, .arr cl =>
           let d := compare_lists bl cl
           if d.added.isEmpty && d.removed.isEmpty then []
           else [(k, .modifiedList d.added d.removed)]
         | .obj bo, .obj co =>
           let d := compare_dicts bo co
           if d.isEmpty then [] else [(k, .modifiedDict d)]
         | _, _ => [(k, .modifiedScalar bv cv)]
     | none, none => []) ++ cdGo ks b c
termination_by ks b c => (sizeOf b, ks.length)
decreasing_by
  · apply Prod.Lex.left
    have h1 := sizeOf_lookupJ hb
    simp only [JValue.obj.sizeOf_spec] at h1
    omega
  · apply Prod.Lex.right
    simp only [List.length_cons]
    omega

end

/-! ### Fingerprint comparison (`compare_fingerprints`) -/

/-- The `summary` block of a comparison report. -/
structure Summary where
  total_changes : Nat
  critical : Nat
  high : Nat
  medium : Nat
  low : Nat
deriving DecidableEq

def Summary.zero : Summary := ⟨0, 0, 0, 0, 0⟩

/-- `differences["summary"][severity.value] += 1`. -/
def Summary.bump (s : Summary) (sev : ChangeSeverity) : Summary :=
  match sev with
  | .critical => { s with critical := s.critical + 1 }
  | .high => { s with high := s.high + 1 }
  | .medium => { s with medium := s.medium + 1 }
  | .low => { s with low := s.low + 1 }

/-- `differences["summary"]["total_changes"] += 1`. -/
def Summary.bumpTotal (s : Summary) : Summary :=
  { s with total_changes := s.total_changes + 1 }

/-- The payload of one entry of `differences["changes"]`. -/
inductive ChangePayload where
  | dataV (data : JValue)
  | listDiffP (added removed : List JValue)
  | dictDiffP (changes : List (String × DictChange))
  | scalarP (baseline current : JValue)

/-- One entry of `differences["changes"]`. -/
structure ChangeEntry where
  severity : ChangeSeverity
  ctype : String
  payload : ChangePayload

/-- Union of baseline and current collector names
(`set(baseline_collectors.keys()) | set(current_collectors.keys())`);
the embedded iteration order is first-occurrence order — Python's set
iteration order is unspecified, and neither the changes map nor the
summary counts depend on it. -/
def unionCollectors (bcols ccols : JDict) : List String :=
  (dictKeys bcols ++ dictKeys ccols).dedup

/-- The body of the `for collector in all_collectors` loop: the change
entry this iteration records, or `none` when it records nothing
(ignored collector, equal data, or empty diff). -/
def cfStep (bcols ccols : JDict) (ignore : List String) (name : String) :
    Option ChangeEntry :=
  if name ∈ ignore then none
  else
    match lookupJ bcols name, lookupJ ccols name with
    | none, some d => some ⟨.low, "collector_added", .dataV d⟩
    | some d, none => some ⟨.medium, "collector_removed", .dataV d⟩
    | some bd, some cd =>
      if bd = cd then none
      else
        match bd, cd with
        | .arr bl, .arr cl =>
          let diff := compare_lists bl cl
          if diff.added.isEmpty && diff.removed.isEmpty then none
          else some ⟨classify_severity name .modified, "modified",
            .listDiffP diff.added diff.removed⟩
        | .obj bo, .obj co =>
          let diff := compare_dicts bo co
          if diff.isEmpty then none
          else some ⟨classify_severity name .modified, "modified",
            .dictDiffP diff⟩
        | _, _ =>
          some ⟨classify_severity name .modified, "modified", .scalarP bd cd⟩
    | none, none => none

/-- The loop over all collector names, threading the `summary` counters
and the `changes` map exactly as the source mutates them: when an entry
is recorded, the severity counter and the total are each incremented
once, and the entry is added under the collector's name. -/
def cfFold (bcols ccols : JDict) (ignore : List String) :
    List String → Summary × List (String × ChangeEntry)
      → Summary × List (String × ChangeEntry)
  | [], acc => acc
  | n :: ns, (s, ch) =>
    match cfStep bcols ccols ignore n with
    | none => cfFold bcols ccols ignore ns (s, ch)
    | some e =>
      cfFold bcols ccols ignore ns
        ((s.bump e.severity).bumpTotal, ch ++ [(n, e)])

/-- A comparison report. -/
structure Report where
  timestamp : String
  baseline_timestamp : JValue
  current_timestamp : JValue
  summary : Summary
  changes : List (String × ChangeEntry)

/-- `fingerprint.get("collectors", {})`.  The theorems' well-formedness
hypotheses restrict to documents whose `collectors` field, when present,
is a dict: on any other document the Python code raises `AttributeError`
before producing a report, so no claim is made there. -/
def collectorsOf (d : JDict) : JDict :=
  match lookupJ d "collectors" with
  | some (.obj kvs) => kvs
  | _ => []

/-- The `collectors` field is absent or a dict. -/
def collectorsWF (d : JDict) : Bool :=
  match lookupJ d "collectors" with
  | none => true
  | some (.obj _) => true
  | some _ => false

/-- `compare_fingerprints(baseline, current, ignore_collectors)`; the
`now` parameter stands for `datetime.now().isoformat()`. -/
def compare_fingerprints (now : String) (baseline current : JDict)
    (ignore : List String) : Report :=
  let bcols := collectorsOf baseline
  let ccols := collectorsOf current
  let res := cfFold bcols ccols ignore (unionCollectors bcols ccols)
    (Summary.zero, [])
  { timestamp := now
    baseline_timestamp := (lookupJ baseline "timestamp").getD (.str "unknown")
    current_timestamp := (lookupJ current "timestamp").getD (.str "unknown")
    summary := res.1
    changes := res.2 }

/-- The entries the loop records, in iteration order, each under its
collector's name. -/
def emittedChanges (bcols ccols : JDict) (ignore : List String)
    (names : List String) : List (String × ChangeEntry) :=
  names.filterMap (fun n =>
    (cfStep bcols ccols ignore n).map (fun e => (n, e)))

/-- Number of changes recorded at a given severity. -/
def sevCount (sev : ChangeSeverity) (l : List (String × ChangeEntry)) : Nat :=
  l.countP (fun p => decide (p.2.severity = sev))

theorem cfFold_spec (bcols ccols : JDict) (ignore : List String) :
    ∀ (names : List String) (s : Summary) (ch : List (String × ChangeEntry)),
      cfFold bcols ccols ignore names (s, ch)
        = (⟨s.total_changes
              + (emittedChanges bcols ccols ignore names).length,
            s.critical
              + sevCount .critical (emittedChanges bcols ccols ignore names),
            s.high
              + sevCount .high (emittedChanges bcols ccols ignore names),
            s.medium
              + sevCount .medium (emittedChanges bcols ccols ignore names),
            s.low
              + sevCount .low (emittedChanges bcols ccols ignore names)⟩,
           ch ++ emittedChanges bcols ccols ignore names) := by
  intro names
  induction names with
  | nil =>
    intro s ch
    simp [cfFold, emittedChanges, sevCount]
  | cons n ns ih =>
    intro s ch
    cases hstep : cfStep bcols ccols ignore n with
    | none =>
      have hemit : emittedChanges bcols ccols ignore (n :: ns)
          = emittedChanges bcols ccols ignore ns := by
        simp [emittedChanges, List.filterMap_cons, hstep]
      have hunf : cfFold bcols ccols ignore (n :: ns) (s, ch)
          = cfFold bcols ccols ignore ns (s, ch) := by
        simp [cfFold, hstep]
      rw [hunf, ih, hemit]
    | some e =>
      have hemit : emittedChanges bcols ccols ignore (n :: ns)
          = (n, e) :: emittedChanges bcols ccols ignore ns := by
        simp [emittedChanges, List.filterMap_cons, hstep]
      have hunf : cfFold bcols ccols ignore (n :: ns) (s, ch)
          = cfFold bcols ccols ignore ns
              ((s.bump e.severity).bumpTotal, ch ++ [(n, e)]) := by
        simp [cfFold, hstep]
      rw [hunf, ih, hemit]
      cases hsev : e.severity <;>
        simp [Summary.bump, Summary.bumpTotal, hsev, sevCount,
          List.countP_cons] <;>
        omega

theorem sevCount_partition (l : List (String × ChangeEntry)) :
    l.length = sevCount .critical l + sevCount .high l
      + sevCount .medium l + sevCount .low l := by
  induction l with
  | nil => simp [sevCount]
  | cons p rest ih =>
    cases hsev : p.2.severity <;>
      simp [sevCount, List.countP_cons, hsev] at ih ⊢ <;>
      omega

theorem mem_keys_emitted {bcols ccols : JDict} {ignore names : List String}
    {n : String}
    (h : n ∈ (emittedChanges bcols ccols ignore names).map Prod.fst) :
    ∃ e, cfStep bcols ccols ignore n = some e := by
  rcases List.mem_map.mp h with ⟨p, hp, hfst⟩
  rcases List.mem_filterMap.mp hp with ⟨n', hn', hstep⟩
  cases hs : cfStep bcols ccols ignore n' with
  | none => rw [hs] at hstep; simp at hstep
  | some e =>
    rw [hs] at hstep
    have hp2 : p = (n', e) := by simpa using hstep.symm
    subst hp2
    simp only [] at hfst
    exact ⟨e, hfst ▸ hs⟩

theorem not_mem_changes_of_step_none {bcols ccols : JDict}
    {ignore names : List String} {n : String}
    (hnone : cfStep bcols ccols ignore n = none) :
    n ∉ (emittedChanges bcols ccols ignore names).map Prod.fst := by
  intro hmem
  rcases mem_keys_emitted hmem with ⟨e, he⟩
  rw [hnone] at he
  exact Option.noConfusion he

theorem cfStep_none_of_ignored {bcols ccols : JDict} {ignore : List String}
    {n : String} (h : n ∈ ignore) :
    cfStep bcols ccols ignore n = none := by
  simp [cfStep, h]

theorem cfStep_none_of_empty_list_diff {bcols ccols : JDict}
    {ignore : List String} {n : String} {bl cl : List JValue}
    (hb : lookupJ bcols n = some (.arr bl))
    (hc : lookupJ ccols n = some (.arr cl))
    (ha : (compare_lists bl cl).added = [])
    (hr : (compare_lists bl cl).removed = []) :
    cfStep bcols ccols ignore n = none := by
  unfold cfStep
  by_cases hig : n ∈ ignore
  · simp [hig]
  · rw [if_neg hig, hb, hc]
    by_cases heq : JValue.arr bl = JValue.arr cl
    · simp [heq]
    · simp [heq, ha, hr]

theorem cfStep_none_of_empty_dict_diff {bcols ccols : JDict}
    {ignore : List String} {n : String} {bo co : JDict}
    (hb : lookupJ bcols n = some (.obj bo))
    (hc : lookupJ ccols n = some (.obj co))
    (hd : compare_dicts bo co = []) :
    cfStep bcols ccols ignore n = none := by
  unfold cfStep
  by_cases hig : n ∈ ignore
  · simp [hig]
  · rw [if_neg hig, hb, hc]
    by_cases heq : JValue.obj bo = JValue.obj co
    · simp [heq]
    · simp [heq, hd]

/-- C3: in every report of `compare_fingerprints` (over well-formed
fingerprint documents, whose `collectors` field is absent or a dict),
`summary.total_changes` equals the number of change entries and equals
`critical + high + medium + low`; each per-severity counter counts exactly
the entries carrying that severity; collectors in the ignore-set
contribute no entry; and a collector present in both documents whose list
diff is empty, or whose recursive dict diff is empty, contributes no
entry (and hence, by the counting equalities, no count). -/
theorem compare_fingerprints_summary_consistent
    (now : String) (baseline current : JDict) (ignore : List String)
    (hwb : collectorsWF baseline = true)
    (hwc : collectorsWF current = true) :
    (compare_fingerprints now baseline current ignore).summary.total_changes
      = (compare_fingerprints now baseline current ignore).changes.length
    ∧ (compare_fingerprints now baseline current ignore).summary.total_changes
      = (compare_fingerprints now baseline current ignore).summary.critical
        + (compare_fingerprints now baseline current ignore).summary.high
        + (compare_fingerprints now baseline current ignore).summary.medium
        + (compare_fingerprints now baseline current ignore).summary.low
    ∧ (compare_fingerprints now baseline current ignore).summary.critical
      = sevCount .critical (compare_fingerprints now baseline current ignore).changes
    ∧ (compare_fingerprints now baseline current ignore).summary.high
      = sevCount .high (compare_fingerprints now baseline current ignore).changes
    ∧ (compare_fingerprints now baseline current ignore).summary.medium
      = sevCount .medium (compare_fingerprints now baseline current ignore).changes
    ∧ (compare_fingerprints now baseline current ignore).summary.low
      = sevCount .low (compare_fingerprints now baseline current ignore).changes
    ∧ (∀ n ∈ ignore,
        n ∉ (compare_fingerprints now baseline current ignore).changes.map
          Prod.fst)
    ∧ (∀ (n : String) (bl cl : List JValue),
        lookupJ (collectorsOf baseline) n = some (.arr bl) →
        lookupJ (collectorsOf current) n = some (.arr cl) →
        (compare_lists bl cl).added = [] →
        (compare_lists bl cl).removed = [] →
        n ∉ (compare_fingerprints now baseline current ignore).changes.map
          Prod.fst)
    ∧ (∀ (n : String) (bo co : JDict),
        lookupJ (collectorsOf baseline) n = some (.obj bo) →
        lookupJ (collectorsOf current) n = some (.obj co) →
        compare_dicts bo co = [] →
        n ∉ (compare_fingerprints now baseline current ignore).changes.map
          Prod.fst) := by
  have hspec := cfFold_spec (collectorsOf baseline) (collectorsOf current)
    ignore (unionCollectors (collectorsOf baseline) (collectorsOf current))
    Summary.zero []
  have hch : (compare_fingerprints now baseline current ignore).changes
      = emittedChanges (collectorsOf baseline) (collectorsOf current) ignore
          (unionCollectors (collectorsOf baseline) (collectorsOf current)) := by
    simp [compare_fingerprints, hspec]
  have hsum : (compare_fingerprints now baseline current ignore).summary
      = ⟨(emittedChanges (collectorsOf baseline) (collectorsOf current) ignore
            (unionCollectors (collectorsOf baseline)
              (collectorsOf current))).length,
         sevCount .critical (emittedChanges (collectorsOf baseline)
           (collectorsOf current) ignore
           (unionCollectors (collectorsOf baseline) (collectorsOf current))),
         sevCount .high (emittedChanges (collectorsOf baseline)
           (collectorsOf current) ignore
           (unionCollectors (collectorsOf baseline) (collectorsOf current))),
         sevCount .medium (emittedChanges (collectorsOf baseline)
           (collectorsOf current) ignore
           (unionCollectors (collectorsOf baseline) (collectorsOf current))),
         sevCount .low (emittedChanges (collectorsOf baseline)
           (collectorsOf current) ignore
           (unionCollectors (collectorsOf baseline)
             (collectorsOf current)))⟩ := by
    simp only [compare_fingerprints]
    rw [hspec]
    simp [Summary.zero]
  refine ⟨?_, ?_, ?_, ?_, ?_, ?_, ?_, ?_, ?_⟩
  · rw [hch, hsum]
  · rw [hsum]
    exact sevCount_partition _
  · rw [hch, hsum]
  · rw [hch, hsum]
  · rw [hch, hsum]
  · rw [hch, hsum]
  · intro n hn
    rw [hch]
    exact not_mem_changes_of_step_none (cfStep_none_of_ignored hn)
  · intro n bl cl hb hc ha hr
    rw [hch]
    exact not_mem_changes_of_step_none
      (cfStep_none_of_empty_list_diff hb hc ha hr)
  · intro n bo co hb hc hd
    rw [hch]
    exact not_mem_changes_of_step_none
      (cfStep_none_of_empty_dict_diff hb hc hd)

/-- Witness for `compare_fingerprints_summary_consistent` at concrete
documents with an ignored collector. -/
theorem compare_fingerprints_summary_consistent_witness :
    (compare_fingerprints "t"
        [("collectors", .obj [("A", .str "x"), ("B", .str "y")])]
        [("collectors", .obj [("A", .str "z"), ("B", .str "w")])]
        ["B"]).summary.total_changes
      = (compare_fingerprints "t"
        [("collectors", .obj [("A", .str "x"), ("B", .str "y")])]
        [("collectors", .obj [("A", .str "z"), ("B", .str "w")])]
        ["B"]).changes.length
    ∧ "B" ∉ (compare_fingerprints "t"
        [("collectors", .obj [("A", .str "x"), ("B", .str "y")])]
        [("collectors", .obj [("A", .str "z"), ("B", .str "w")])]
        ["B"]).changes.map Prod.fst :=
  ⟨(compare_fingerprints_summary_consistent "t"
      [("collectors", .obj [("A", .str "x"), ("B", .str "y")])]
      [("collectors", .obj [("A", .str "z"), ("B", .str "w")])]
      ["B"] (by decide) (by decide)).1,
   (compare_fingerprints_summary_consistent "t"
      [("collectors", .obj [("A", .str "x"), ("B", .str "y")])]
      [("collectors", .obj [("A", .str "z"), ("B", .str "w")])]
      ["B"] (by decide) (by decide)).2.2.2.2.2.2.1 "B" (by decide)⟩

theorem addedSeg_self (a : List JValue) (k : HKey) :
    addedSeg a a k = [] := by
  unfold addedSeg
  cases hlast : lastWithKey (a ++ a) k with
  | none => rfl
  | some orig =>
    have hd : ¬ 0 < diffCount a a k := by
      unfold diffCount
      omega
    simp [hd]

theorem removedSeg_self (a : List JValue) (k : HKey) :
    removedSeg a a k = [] := by
  unfold removedSeg
  cases hlast : lastWithKey (a ++ a) k with
  | none => rfl
  | some orig =>
    have hd : ¬ diffCount a a k < 0 := by
      unfold diffCount
      omega
    simp [hd]

theorem flatMap_nil_of_all_nil {α β : Type} (l : List α) (f : α → List β)
    (h : ∀ x ∈ l, f x = []) : l.flatMap f = [] := by
  induction l with
  | nil => rfl
  | cons x xs ih =>
    simp only [List.flatMap_cons, h x (List.mem_cons_self x xs)]
    exact ih (fun y hy => h y (List.mem_cons_of_mem x hy))

theorem compare_lists_self (a : List JValue) :
    compare_lists a a = ⟨[], []⟩ := by
  show (⟨sortLe jvalLe ((allKeysOf a a).flatMap (addedSeg a a)),
      sortLe jvalLe ((allKeysOf a a).flatMap (removedSeg a a))⟩ : ListDiff)
    = ⟨[], []⟩
  rw [flatMap_nil_of_all_nil _ _ (fun k _ => addedSeg_self a k),
    flatMap_nil_of_all_nil _ _ (fun k _ => removedSeg_self a k)]
  rfl

theorem cfStep_self (cols : JDict) (n : String) :
    cfStep cols cols [] n = none := by
  unfold cfStep
  rw [if_neg (List.not_mem_nil n)]
  cases h : lookupJ cols n with
  | none => rfl
  | some v => simp

theorem emittedChanges_self (cols : JDict) (names : List String) :
    emittedChanges cols cols [] names = [] := by
  induction names with
  | nil => rfl
  | cons n ns ih =>
    simp only [emittedChanges, List.filterMap_cons, cfStep_self] at ih ⊢
    exact ih

/-- C7: diffing any value against itself yields an empty diff —
`compare_lists(a, a)` returns empty `added`/`removed` for every list
(duplicates included), and `compare_fingerprints(d, d)` (for a
well-formed fingerprint document) reports `total_changes == 0` and an
empty changes mapping. -/
theorem compare_self_empty :
    (∀ a : List JValue, compare_lists a a = ⟨[], []⟩)
    ∧ (∀ (now : String) (d : JDict), collectorsWF d = true →
        (compare_fingerprints now d d []).summary.total_changes = 0
        ∧ (compare_fingerprints now d d []).changes = []) := by
  constructor
  · exact compare_lists_self
  · intro now d _
    have hspec := cfFold_spec (collectorsOf d) (collectorsOf d) []
      (unionCollectors (collectorsOf d) (collectorsOf d)) Summary.zero []
    rw [emittedChanges_self] at hspec
    constructor
    · simp only [compare_fingerprints]
      rw [hspec]
      simp [Summary.zero]
    · simp only [compare_fingerprints]
      rw [hspec]
      simp

/-- Witness for `compare_self_empty` at a concrete document (and a list
with duplicates). -/
theorem compare_self_empty_witness :
    compare_lists [JValue.str "a", JValue.str "a"]
        [JValue.str "a", JValue.str "a"] = ⟨[], []⟩
    ∧ (compare_fingerprints "t" [("collectors", .obj [("A", .str "x")])]
        [("collectors", .obj [("A", .str "x")])] []).summary.total_changes
      = 0 :=
  ⟨compare_self_empty.1 [JValue.str "a", JValue.str "a"],
   (compare_self_empty.2 "t" [("collectors", .obj [("A", .str "x")])]
     (by decide)).1⟩

/-! ### Redaction (`utils/crypto.py`)

`hash_sensitive_value` is total on strings and on falsy values (`if not
value: return ""`), and raises `AttributeError` on truthy non-strings
(`.encode` / `.startswith`); the raising paths are modelled as `none`. -/

/-- Python truthiness of a JSON value. -/
def pyTruthy : JValue → Bool
  | .null => false
  | .bool b => b
  | .num n => decide (n ≠ 0)
  | .str s => decide (s ≠ "")
  | .arr xs => decide (xs ≠ [])
  | .obj kvs => decide (kvs ≠ [])

/-- `hash_sensitive_value(value)` on a string: empty maps to empty, any
other string to the hex SHA3-256 digest of its UTF-8 encoding. -/
def hash_sensitive_value (value : String) : String :=
  if value = "" then "" else sha3hex value

/-- `hash_sensitive_value(value)` on an arbitrary value: falsy values
return `""` before any hashing; truthy strings are hashed; a truthy
non-string raises (modelled as `none`). -/
def hash_sensitive_value_j (v : JValue) : Option String :=
  if pyTruthy v then
    match v with
    | .str s => some (sha3hex s)
    | _ => none
  else some ""

/-- A list element under `hash_sensitive_value(line) if line else ""`. -/
def hashLineOrEmpty (v : JValue) : Option JValue :=
  if pyTruthy v then (hash_sensitive_value_j v).map .str
  else some (.str "")

/-- A hosts-file line under
`hash_sensitive_value(line) if line and not line.startswith("#") else line`. -/
def hashHostsLine (v : JValue) : Option JValue :=
  if pyTruthy v then
    match v with
    | .str s =>
      if s.startsWith "#" then some (.str s) else some (.str (sha3hex s))
    | _ => none
  else some v

/-- Effectful map over `Option` (a list comprehension whose element
expression may raise: the first raise aborts the whole comprehension). -/
def mapMO {α β : Type} (f : α → Option β) : List α → Option (List β)
  | [] => some []
  | x :: xs => (f x).bind (fun y => (mapMO f xs).map (fun ys => y :: ys))

/-- Process one registered list-valued field: if present and a list,
hash each element with `hashLineOrEmpty`. -/
def hashListField (kvs : JDict) (field : String) : Option JDict :=
  match lookupJ kvs field with
  | some (.arr xs) =>
    (mapMO hashLineOrEmpty xs).map (fun ys => dictSet kvs field (.arr ys))
  | _ => some kvs

/-- `_hash_network_config`.  On a dict, the four registered fields are
rewritten in turn.  On a list (possible because the caller only checks
`isinstance(collector_data, (dict, list))`), `.copy()` succeeds and each
`"field" in net_config` membership test succeeds or fails; on success the
subsequent string indexing of a list raises, modelled as `none`. -/
def hash_network_config (v : JValue) : Option JValue :=
  match v with
  | .obj kvs =>
    (match lookupJ kvs "ip_addresses" with
     | some (.obj ips) =>
       (mapMO (fun (p : String × JValue) =>
         (hash_sensitive_value_j p.2).map (fun h => (p.1, JValue.str h))) ips).map
         (fun ys => dictSet kvs "ip_addresses" (.obj ys))
     | _ => some kvs).bind
      (fun k1 => hashListField k1 "arp_cache") |>.bind
      (fun k2 => hashListField k2 "routing_table") |>.bind
      (fun k3 => hashListField k3 "wifi_networks") |>.map .obj
  | .arr xs =>
    if (JValue.str "ip_addresses") ∈ xs ∨ (JValue.str "arp_cache") ∈ xs
        ∨ (JValue.str "routing_table") ∈ xs
        ∨ (JValue.str "wifi_networks") ∈ xs
    then none else some (.arr xs)
  | v => some v

/-- `_hash_ssh_config` (same shape handling as the network hasher). -/
def hash_ssh_config (v : JValue) : Option JValue :=
  match v with
  | .obj kvs => (hashListField kvs "known_hosts").map .obj
  | .arr xs =>
    if (JValue.str "known_hosts") ∈ xs then none else some (.arr xs)
  | v => some v

/-- `_hash_hosts_file`: hashes the non-comment lines of a list; iterating
a dict in the comprehension yields its keys, so a dict-valued entry is
turned into a list of processed keys. -/
def hash_hosts_file (v : JValue) : Option JValue :=
  match v with
  | .arr xs => (mapMO hashHostsLine xs).map .arr
  | .obj kvs =>
    (mapMO hashHostsLine (kvs.map (fun p => JValue.str p.1))).map .arr
  | v => some v

/-- Apply one registered hasher to its collector entry when present and a
dict or a list (`isinstance(collector_data, (dict, list))`). -/
def applyHasher (hasher : JValue → Option JValue) (name : String)
    (cols : JDict) : Option JDict :=
  match lookupJ cols name with
  | some v =>
    match v with
    | .obj _ => (hasher v).map (fun hv => dictSet cols name hv)
    | .arr _ => (hasher v).map (fun hv => dictSet cols name hv)
    | _ => some cols
  | none => some cols

/-- `hash_fingerprint_data(data)`: rewrite the three registered sensitive
collectors inside `data["collectors"]` (when that field is a dict),
returning a new document. -/
def hash_fingerprint_data (data : JDict) : Option JDict :=
  match lookupJ data "collectors" with
  | some (.obj cols) =>
    (((applyHasher hash_network_config "NetworkConfigCollector" cols).bind
        (applyHasher hash_ssh_config "SSHConfigCollector")).bind
        (applyHasher hash_hosts_file "HostsFileCollector")).map
      (fun hc => dictSet data "collectors" (.obj hc))
  | _ => some data

/-! ### Document shapes

The shape of a document forgets every leaf value but keeps the kind of
every leaf, the length of every list and the keys of every dict, so
"shape-preserving" is exactly "same keys and same container type at every
position, lists keeping their length". -/

inductive JShape where
  | nullS
  | boolS
  | numS
  | strS
  | arrS (xs : List JShape)
  | objS (kvs : List (String × JShape))

mutual

def shapeOf : JValue → JShape
  | .null => .nullS
  | .bool _ => .boolS
  | .num _ => .numS
  | .str _ => .strS
  | .arr xs => .arrS (shapeOfList xs)
  | .obj kvs => .objS (shapeOfObj kvs)

def shapeOfList : List JValue → List JShape
  | [] => []
  | x :: xs => shapeOf x :: shapeOfList xs

def shapeOfObj : List (String × JValue) → List (String × JShape)
  | [] => []
  | (k, v) :: kvs => (k, shapeOf v) :: shapeOfObj kvs

end

namespace JShape

mutual

def decEqS (s₁ s₂ : JShape) : Decidable (s₁ = s₂) := by
  cases s₁ <;> cases s₂
  case nullS.nullS => exact isTrue rfl
  case boolS.boolS => exact isTrue rfl
  case numS.numS => exact isTrue rfl
  case strS.strS => exact isTrue rfl
  case arrS.arrS a b =>
    cases decEqSList a b with
    | isTrue hab => exact isTrue (by rw [hab])
    | isFalse hab => exact isFalse (by simp [hab])
  case objS.objS a b =>
    cases decEqSObj a b with
    | isTrue hab => exact isTrue (by rw [hab])
    | isFalse hab => exact isFalse (by simp [hab])
  all_goals exact isFalse (fun hcon => JShape.noConfusion hcon)

def decEqSList (xs₁ xs₂ : List JShape) : Decidable (xs₁ = xs₂) :=
  match xs₁, xs₂ with
  | [], [] => isTrue rfl
  | [], _ :: _ => isFalse (fun hcon => List.noConfusion hcon)
  | _ :: _, [] => isFalse (fun hcon => List.noConfusion hcon)
  | x₁ :: t₁, x₂ :: t₂ =>
    match decEqS x₁ x₂ with
    | isFalse hx => isFalse (by simp [hx])
    | isTrue hx =>
      match decEqSList t₁ t₂ with
      | isFalse ht => isFalse (by simp [ht])
      | isTrue ht => isTrue (by rw [hx, ht])

def decEqSObj (kvs₁ kvs₂ : List (String × JShape)) :
    Decidable (kvs₁ = kvs₂) :=
  match kvs₁, kvs₂ with
  | [], [] => isTrue rfl
  | [], _ :: _ => isFalse (fun hcon => List.noConfusion hcon)
  | _ :: _, [] => isFalse (fun hcon => List.noConfusion hcon)
  | (k₁, v₁) :: t₁, (k₂, v₂) :: t₂ =>
    if hk : k₁ = k₂ then
      match decEqS v₁ v₂ with
      | isFalse hv => isFalse (by simp [hv])
      | isTrue hv =>
        match decEqSObj t₁ t₂ with
        | isFalse ht => isFalse (by simp [ht])
        | isTrue ht => isTrue (by rw [hk, hv, ht])
    else isFalse (by simp [hk])

end

instance : DecidableEq JShape := decEqS

end JShape

/-- What redaction does to a registered string leaf. -/
def jHashLeaf : JValue → JValue
  | .str s => .str (hash_sensitive_value s)
  | v => v

/-- What redaction does to a hosts-file string line (comment lines and
empty lines pass through). -/
def jHostsLeaf : JValue → JValue
  | .str s =>
    if s = "" then .str s
    else if s.startsWith "#" then .str s
    else .str (sha3hex s)
  | v => v

/-- The transform `_hash_network_config` applies to the `ip_addresses`
field. -/
def ipTransform : JValue → JValue
  | .obj ips => .obj (ips.map (fun p => (p.1, jHashLeaf p.2)))
  | v => v

/-- The transform applied to a registered list-valued field. -/
def listTransform : JValue → JValue
  | .arr xs => .arr (xs.map jHashLeaf)
  | v => v

/-- The transform `_hash_hosts_file` applies to a list entry. -/
def hostsTransform : JValue → JValue
  | .arr xs => .arr (xs.map jHostsLeaf)
  | v => v

def isStrJ : JValue → Bool
  | .str _ => true
  | _ => false

def allStr (xs : List JValue) : Bool := xs.all isStrJ

def allValuesStr (kvs : JDict) : Bool := kvs.all (fun p => isStrJ p.2)

/-- If the field is present and a list, its elements are all strings. -/
def listFieldWF (kvs : JDict) (field : String) : Bool :=
  match lookupJ kvs field with
  | some (.arr xs) => allStr xs
  | _ => true

/-- The `NetworkConfigCollector` entry is on the domain where
`_hash_network_config` neither raises nor rewrites a non-string leaf. -/
def netEntryWF : JValue → Bool
  | .obj kvs =>
    (match lookupJ kvs "ip_addresses" with
     | some (.obj ips) => allValuesStr ips
     | _ => true)
    && listFieldWF kvs "arp_cache"
    && listFieldWF kvs "routing_table"
    && listFieldWF kvs "wifi_networks"
  | .arr xs =>
    decide (JValue.str "ip_addresses" ∉ xs ∧ JValue.str "arp_cache" ∉ xs
      ∧ JValue.str "routing_table" ∉ xs ∧ JValue.str "wifi_networks" ∉ xs)
  | _ => true

def sshEntryWF : JValue → Bool
  | .obj kvs => listFieldWF kvs "known_hosts"
  | .arr xs => decide (JValue.str "known_hosts" ∉ xs)
  | _ => true

/-- The `HostsFileCollector` entry must be a list of strings (a dict
entry would be turned into a list of keys, violating shape preservation;
a truthy non-string line raises). -/
def hostsEntryWF : JValue → Bool
  | .arr xs => allStr xs
  | .obj _ => false
  | _ => true

/-- The sensitive collectors of the document carry string leaves at the
registered positions (and their expected container kinds). -/
def sensitiveWF (data : JDict) : Bool :=
  match lookupJ data "collectors" with
  | some (.obj cols) =>
    (match lookupJ cols "NetworkConfigCollector" with
     | some v => netEntryWF v
     | none => true)
    && (match lookupJ cols "SSHConfigCollector" with
     | some v => sshEntryWF v
     | none => true)
    && (match lookupJ cols "HostsFileCollector" with
     | some v => hostsEntryWF v
     | none => true)
  | _ => true

theorem lookupJ_dictSet_self (kvs : JDict) (k : String) (v : JValue) :
    lookupJ (dictSet kvs k v) k = some v := by
  induction kvs with
  | nil => simp [dictSet, lookupJ]
  | cons p rest ih =>
    rcases p with ⟨k', v'⟩
    by_cases h : k' = k
    · simp [dictSet, lookupJ, h]
    · simp [dictSet, lookupJ, h, ih]

theorem lookupJ_dictSet_other (kvs : JDict) (k g : String) (v : JValue)
    (hne : g ≠ k) : lookupJ (dictSet kvs k v) g = lookupJ kvs g := by
  induction kvs with
  | nil =>
    simp only [dictSet, lookupJ]
    rw [if_neg (fun h => hne h.symm)]
  | cons p rest ih =>
    rcases p with ⟨k', v'⟩
    by_cases h : k' = k
    · subst h
      have : k' ≠ g := fun h2 => hne h2.symm
      simp [dictSet, lookupJ, this]
    · simp only [dictSet, h, if_false]
      by_cases h2 : k' = g
      · simp [lookupJ, h2]
      · simp [lookupJ, h2, ih]

theorem shapeOfObj_dictSet (kvs : JDict) (k : String) (v w : JValue)
    (hl : lookupJ kvs k = some v) (hs : shapeOf w = shapeOf v) :
    shapeOfObj (dictSet kvs k w) = shapeOfObj kvs := by
  induction kvs with
  | nil => simp [lookupJ] at hl
  | cons p rest ih =>
    rcases p with ⟨k', v'⟩
    simp only [lookupJ] at hl
    by_cases h : k' = k
    · rw [if_pos h] at hl
      injection hl with hl
      subst hl
      subst h
      simp [dictSet, shapeOfObj, hs]
    · rw [if_neg h] at hl
      simp [dictSet, shapeOfObj, h, ih hl]

theorem hash_sensitive_value_j_str (s : String) :
    hash_sensitive_value_j (.str s) = some (hash_sensitive_value s) := by
  by_cases h : s = "" <;>
    simp [hash_sensitive_value_j, pyTruthy, hash_sensitive_value, h]

theorem hashLineOrEmpty_str (s : String) :
    hashLineOrEmpty (.str s) = some (.str (hash_sensitive_value s)) := by
  by_cases h : s = "" <;>
    simp [hashLineOrEmpty, pyTruthy, hash_sensitive_value_j,
      hash_sensitive_value, h]

theorem hashHostsLine_str (s : String) :
    hashHostsLine (.str s) = some (jHostsLeaf (.str s)) := by
  by_cases h : s = ""
  · simp [hashHostsLine, pyTruthy, jHostsLeaf, h]
  · by_cases hc : s.startsWith "#" <;>
      simp [hashHostsLine, pyTruthy, jHostsLeaf, h, hc]

theorem shapeOf_jHashLeaf_str (s : String) :
    shapeOf (jHashLeaf (.str s)) = .strS := rfl

theorem shapeOf_jHostsLeaf_str (s : String) :
    shapeOf (jHostsLeaf (.str s)) = .strS := by
  by_cases h : s = ""
  · simp [jHostsLeaf, h, shapeOf]
  · by_cases hc : s.startsWith "#" <;> simp [jHostsLeaf, h, hc, shapeOf]

theorem mapMO_hashLine_of_allStr {xs : List JValue} (h : allStr xs = true) :
    mapMO hashLineOrEmpty xs = some (xs.map jHashLeaf) := by
  induction xs with
  | nil => rfl
  | cons x rest ih =>
    simp only [allStr, List.all_cons, Bool.and_eq_true] at h
    obtain ⟨hx, hrest⟩ := h
    cases x <;> simp [isStrJ] at hx
    case str s =>
      have hhead := hashLineOrEmpty_str s
      have hjh : jHashLeaf (.str s) = .str (hash_sensitive_value s) := rfl
      simp [mapMO, hhead, ih hrest, hjh]

theorem mapMO_hostsLine_of_allStr {xs : List JValue} (h : allStr xs = true) :
    mapMO hashHostsLine xs = some (xs.map jHostsLeaf) := by
  induction xs with
  | nil => rfl
  | cons x rest ih =>
    simp only [allStr, List.all_cons, Bool.and_eq_true] at h
    obtain ⟨hx, hrest⟩ := h
    cases x <;> simp [isStrJ] at hx
    case str s =>
      simp [mapMO, hashHostsLine_str s, ih hrest]

theorem mapMO_ips_of_allValuesStr {ips : JDict}
    (h : allValuesStr ips = true) :
    mapMO (fun (p : String × JValue) =>
        (hash_sensitive_value_j p.2).map (fun hh => (p.1, JValue.str hh))) ips
      = some (ips.map (fun p => (p.1, jHashLeaf p.2))) := by
  induction ips with
  | nil => rfl
  | cons p rest ih =>
    simp only [allValuesStr, List.all_cons, Bool.and_eq_true] at h
    obtain ⟨hp, hrest⟩ := h
    rcases p with ⟨k, v⟩
    cases v <;> simp [isStrJ] at hp
    case str s =>
      have hjh : jHashLeaf (.str s) = .str (hash_sensitive_value s) := rfl
      simp [mapMO, hash_sensitive_value_j_str, ih hrest, hjh]

theorem shapeOfList_map_jHashLeaf {xs : List JValue} (h : allStr xs = true) :
    shapeOfList (xs.map jHashLeaf) = shapeOfList xs := by
  induction xs with
  | nil => rfl
  | cons x rest ih =>
    simp only [allStr, List.all_cons, Bool.and_eq_true] at h
    obtain ⟨hx, hrest⟩ := h
    cases x <;> simp [isStrJ] at hx
    case str s =>
      simp only [List.map_cons, shapeOfList, shapeOf_jHashLeaf_str]
      rw [ih hrest]
      simp [shapeOf]

theorem shapeOfList_map_jHostsLeaf {xs : List JValue} (h : allStr xs = true) :
    shapeOfList (xs.map jHostsLeaf) = shapeOfList xs := by
  induction xs with
  | nil => rfl
  | cons x rest ih =>
    simp only [allStr, List.all_cons, Bool.and_eq_true] at h
    obtain ⟨hx, hrest⟩ := h
    cases x <;> simp [isStrJ] at hx
    case str s =>
      simp only [List.map_cons, shapeOfList, shapeOf_jHostsLeaf_str]
      rw [ih hrest]
      simp [shapeOf]

theorem shapeOfObj_map_jHashLeaf {kvs : JDict}
    (h : allValuesStr kvs = true) :
    shapeOfObj (kvs.map (fun p => (p.1, jHashLeaf p.2))) = shapeOfObj kvs := by
  induction kvs with
  | nil => rfl
  | cons p rest ih =>
    simp only [allValuesStr, List.all_cons, Bool.and_eq_true] at h
    obtain ⟨hp, hrest⟩ := h
    rcases p with ⟨k, v⟩
    cases v <;> simp [isStrJ] at hp
    case str s =>
      simp only [List.map_cons, shapeOfObj]
      rw [ih hrest]
      have : shapeOf (jHashLeaf (.str s)) = shapeOf (.str s) := rfl
      rw [this]

theorem dictSet_lookup_eq {kvs : JDict} {k : String} {v : JValue}
    (h : lookupJ kvs k = some v) : dictSet kvs k v = kvs := by
  induction kvs with
  | nil => simp [lookupJ] at h
  | cons p rest ih =>
    rcases p with ⟨k', v'⟩
    simp only [lookupJ] at h
    by_cases hk : k' = k
    · rw [if_pos hk] at h
      injection h with h
      subst h
      subst hk
      simp [dictSet]
    · rw [if_neg hk] at h
      simp [dictSet, hk, ih h]

theorem listFieldWF_congr {a b : JDict} {f : String}
    (h : lookupJ a f = lookupJ b f) : listFieldWF a f = listFieldWF b f := by
  unfold listFieldWF
  rw [h]

theorem listTransform_nonarr {v : JValue} (h : ∀ xs, v ≠ .arr xs) :
    listTransform v = v := by
  cases v <;> first | rfl | exact absurd rfl (h _)

theorem hashListField_spec (kvs : JDict) (f : String)
    (hwf : listFieldWF kvs f = true) :
    ∃ out, hashListField kvs f = some out
      ∧ shapeOfObj out = shapeOfObj kvs
      ∧ lookupJ out f = (lookupJ kvs f).map listTransform
      ∧ (∀ g, g ≠ f → lookupJ out g = lookupJ kvs g) := by
  unfold listFieldWF at hwf
  cases hl : lookupJ kvs f with
  | none =>
    refine ⟨kvs, ?_, rfl, ?_, fun g _ => rfl⟩
    · simp [hashListField, hl]
    · rw [hl]
      rfl
  | some v =>
    rw [hl] at hwf
    cases v with
    | arr xs =>
      refine ⟨dictSet kvs f (.arr (xs.map jHashLeaf)), ?_, ?_, ?_, ?_⟩
      · simp [hashListField, hl, mapMO_hashLine_of_allStr hwf]
      · exact shapeOfObj_dictSet kvs f (.arr xs) _ hl
          (by simp [shapeOf, shapeOfList_map_jHashLeaf hwf])
      · simp [lookupJ_dictSet_self, hl, listTransform]
      · intro g hg
        exact lookupJ_dictSet_other kvs f g _ hg
    | null =>
      refine ⟨kvs, by simp [hashListField, hl], rfl, ?_, fun g _ => rfl⟩
      rw [hl]; rfl
    | bool b =>
      refine ⟨kvs, by simp [hashListField, hl], rfl, ?_, fun g _ => rfl⟩
      rw [hl]; rfl
    | num n =>
      refine ⟨kvs, by simp [hashListField, hl], rfl, ?_, fun g _ => rfl⟩
      rw [hl]; rfl
    | str s =>
      refine ⟨kvs, by simp [hashListField, hl], rfl, ?_, fun g _ => rfl⟩
      rw [hl]; rfl
    | obj o =>
      refine ⟨kvs, by simp [hashListField, hl], rfl, ?_, fun g _ => rfl⟩
      rw [hl]; rfl

/-- The `ip_addresses` rewriting step of `_hash_network_config`
(named for the proofs; `hash_network_config` unfolds to it). -/
def ipStep (kvs : JDict) : Option JDict :=
  match lookupJ kvs "ip_addresses" with
  | some (.obj ips) =>
    (mapMO (fun (p : String × JValue) =>
      (hash_sensitive_value_j p.2).map (fun h => (p.1, JValue.str h))) ips).map
      (fun ys => dictSet kvs "ip_addresses" (.obj ys))
  | _ => some kvs

theorem hash_network_config_obj_eq (kvs : JDict) :
    hash_network_config (.obj kvs)
      = ((((ipStep kvs).bind (fun k1 => hashListField k1 "arp_cache")).bind
          (fun k2 => hashListField k2 "routing_table")).bind
          (fun k3 => hashListField k3 "wifi_networks")).map .obj := rfl

theorem ipStep_spec (kvs : JDict)
    (hwf : (match lookupJ kvs "ip_addresses" with
            | some (.obj ips) => allValuesStr ips
            | _ => true) = true) :
    ∃ out, ipStep kvs = some out
      ∧ shapeOfObj out = shapeOfObj kvs
      ∧ lookupJ out "ip_addresses"
        = (lookupJ kvs "ip_addresses").map ipTransform
      ∧ ∀ g, g ≠ "ip_addresses" → lookupJ out g = lookupJ kvs g := by
  cases hl : lookupJ kvs "ip_addresses" with
  | none =>
    refine ⟨kvs, ?_, rfl, ?_, fun g _ => rfl⟩
    · simp [ipStep, hl]
    · rw [hl]
      rfl
  | some v =>
    rw [hl] at hwf
    cases v with
    | obj ips =>
      refine ⟨dictSet kvs "ip_addresses"
          (.obj (ips.map (fun p => (p.1, jHashLeaf p.2)))), ?_, ?_, ?_, ?_⟩
      · simp [ipStep, hl, mapMO_ips_of_allValuesStr hwf]
      · exact shapeOfObj_dictSet kvs _ (.obj ips) _ hl
          (by simp [shapeOf, shapeOfObj_map_jHashLeaf hwf])
      · simp [lookupJ_dictSet_self, hl, ipTransform]
      · intro g hg
        exact lookupJ_dictSet_other kvs _ g _ hg
    | null =>
      refine ⟨kvs, by simp [ipStep, hl], rfl, ?_, fun g _ => rfl⟩
      rw [hl]; rfl
    | bool b =>
      refine ⟨kvs, by simp [ipStep, hl], rfl, ?_, fun g _ => rfl⟩
      rw [hl]; rfl
    | num n =>
      refine ⟨kvs, by simp [ipStep, hl], rfl, ?_, fun g _ => rfl⟩
      rw [hl]; rfl
    | str s =>
      refine ⟨kvs, by simp [ipStep, hl], rfl, ?_, fun g _ => rfl⟩
      rw [hl]; rfl
    | arr a =>
      refine ⟨kvs, by simp [ipStep, hl], rfl, ?_, fun g _ => rfl⟩
      rw [hl]; rfl

theorem hash_network_config_obj_spec (kvs : JDict)
    (hwf : netEntryWF (.obj kvs) = true) :
    ∃ out, hash_network_config (.obj kvs) = some (.obj out)
      ∧ shapeOfObj out = shapeOfObj kvs
      ∧ lookupJ out "ip_addresses"
        = (lookupJ kvs "ip_addresses").map ipTransform
      ∧ lookupJ out "arp_cache" = (lookupJ kvs "arp_cache").map listTransform
      ∧ lookupJ out "routing_table"
        = (lookupJ kvs "routing_table").map listTransform
      ∧ lookupJ out "wifi_networks"
        = (lookupJ kvs "wifi_networks").map listTransform
      ∧ (∀ g, g ≠ "ip_addresses" → g ≠ "arp_cache" → g ≠ "routing_table" →
          g ≠ "wifi_networks" → lookupJ out g = lookupJ kvs g) := by
  unfold netEntryWF at hwf
  simp only [Bool.and_eq_true] at hwf
  obtain ⟨⟨⟨hip, harp⟩, hrout⟩, hwifi⟩ := hwf
  obtain ⟨k1, he1, hs1, hip1, hoth1⟩ := ipStep_spec kvs hip
  have harp1 : listFieldWF k1 "arp_cache" = true := by
    rw [listFieldWF_congr (hoth1 "arp_cache" (by decide))]
    exact harp
  obtain ⟨k2, he2, hs2, harp2, hoth2⟩ := hashListField_spec k1 "arp_cache" harp1
  have hrout2 : listFieldWF k2 "routing_table" = true := by
    rw [listFieldWF_congr (hoth2 "routing_table" (by decide)),
      listFieldWF_congr (hoth1 "routing_table" (by decide))]
    exact hrout
  obtain ⟨k3, he3, hs3, hrout3, hoth3⟩ :=
    hashListField_spec k2 "routing_table" hrout2
  have hwifi3 : listFieldWF k3 "wifi_networks" = true := by
    rw [listFieldWF_congr (hoth3 "wifi_networks" (by decide)),
      listFieldWF_congr (hoth2 "wifi_networks" (by decide)),
      listFieldWF_congr (hoth1 "wifi_networks" (by decide))]
    exact hwifi
  obtain ⟨k4, he4, hs4, hwifi4, hoth4⟩ :=
    hashListField_spec k3 "wifi_networks" hwifi3
  refine ⟨k4, ?_, ?_, ?_, ?_, ?_, ?_, ?_⟩
  · rw [hash_network_config_obj_eq]
    simp [he1, he2, he3, he4]
  · exact hs4.trans (hs3.trans (hs2.trans hs1))
  · rw [hoth4 _ (by decide), hoth3 _ (by decide), hoth2 _ (by decide), hip1]
  · rw [hoth4 _ (by decide), hoth3 _ (by decide), harp2,
      hoth1 _ (by decide)]
  · rw [hoth4 _ (by decide), hrout3, hoth2 _ (by decide),
      hoth1 _ (by decide)]
  · rw [hwifi4, hoth3 _ (by decide), hoth2 _ (by decide),
      hoth1 _ (by decide)]
  · intro g hg1 hg2 hg3 hg4
    rw [hoth4 _ hg4, hoth3 _ hg3, hoth2 _ hg2, hoth1 _ hg1]

theorem hash_ssh_config_obj_spec (kvs : JDict)
    (hwf : sshEntryWF (.obj kvs) = true) :
    ∃ out, hash_ssh_config (.obj kvs) = some (.obj out)
      ∧ shapeOfObj out = shapeOfObj kvs
      ∧ lookupJ out "known_hosts"
        = (lookupJ kvs "known_hosts").map listTransform
      ∧ ∀ g, g ≠ "known_hosts" → lookupJ out g = lookupJ kvs g := by
  have hwf' : listFieldWF kvs "known_hosts" = true := hwf
  obtain ⟨out, he, hs, hkh, hoth⟩ := hashListField_spec kvs "known_hosts" hwf'
  exact ⟨out, by simp [hash_ssh_config, he], hs, hkh, hoth⟩

theorem hash_network_config_arr_of_wf (xs : List JValue)
    (hwf : netEntryWF (.arr xs) = true) :
    hash_network_config (.arr xs) = some (.arr xs) := by
  simp only [netEntryWF, decide_eq_true_eq] at hwf
  obtain ⟨h1, h2, h3, h4⟩ := hwf
  simp [hash_network_config, h1, h2, h3, h4]

theorem hash_ssh_config_arr_of_wf (xs : List JValue)
    (hwf : sshEntryWF (.arr xs) = true) :
    hash_ssh_config (.arr xs) = some (.arr xs) := by
  simp only [sshEntryWF, decide_eq_true_eq] at hwf
  simp [hash_ssh_config, hwf]

theorem hash_hosts_file_arr_spec (xs : List JValue)
    (hwf : allStr xs = true) :
    hash_hosts_file (.arr xs) = some (.arr (xs.map jHostsLeaf)) := by
  simp [hash_hosts_file, mapMO_hostsLine_of_allStr hwf]

theorem applyHasher_net_spec (cols : JDict)
    (hwf : (match lookupJ cols "NetworkConfigCollector" with
            | some v => netEntryWF v
            | none => true) = true) :
    ∃ out,
      applyHasher hash_network_config "NetworkConfigCollector" cols = some out
      ∧ shapeOfObj out = shapeOfObj cols
      ∧ (∀ g, g ≠ "NetworkConfigCollector" → lookupJ out g = lookupJ cols g)
      ∧ (∀ kvs,
          lookupJ cols "NetworkConfigCollector" = some (.obj kvs) →
          ∃ nout,
            lookupJ out "NetworkConfigCollector" = some (.obj nout)
            ∧ shapeOfObj nout = shapeOfObj kvs
            ∧ lookupJ nout "ip_addresses"
              = (lookupJ kvs "ip_addresses").map ipTransform
            ∧ lookupJ nout "arp_cache"
              = (lookupJ kvs "arp_cache").map listTransform
            ∧ lookupJ nout "routing_table"
              = (lookupJ kvs "routing_table").map listTransform
            ∧ lookupJ nout "wifi_networks"
              = (lookupJ kvs "wifi_networks").map listTransform
            ∧ (∀ g, g ≠ "ip_addresses" → g ≠ "arp_cache" →
                g ≠ "routing_table" → g ≠ "wifi_networks" →
                lookupJ nout g = lookupJ kvs g))
      ∧ ((∀ kvs, lookupJ cols "NetworkConfigCollector" ≠ some (.obj kvs)) →
          out = cols) := by
  cases hv : lookupJ cols "NetworkConfigCollector" with
  | none =>
    refine ⟨cols, by simp [applyHasher, hv], rfl, fun g _ => rfl, ?_, fun _ => rfl⟩
    intro kvs hkvs
    exact absurd hkvs (by simp)
  | some v =>
    rw [hv] at hwf
    cases v with
    | obj kvs =>
      obtain ⟨nout, he, hs, hipo, harpo, hrouto, hwifio, hotho⟩ :=
        hash_network_config_obj_spec kvs hwf
      refine ⟨dictSet cols "NetworkConfigCollector" (.obj nout), ?_, ?_, ?_,
        ?_, ?_⟩
      · simp [applyHasher, hv, he]
      · exact shapeOfObj_dictSet cols _ (.obj kvs) _ hv
          (by simp [shapeOf, hs])
      · intro g hg
        exact lookupJ_dictSet_other cols _ g _ hg
      · intro kvs2 hkvs2
        injection hkvs2 with hkvs2
        injection hkvs2 with hkvs2
        subst hkvs2
        exact ⟨nout, lookupJ_dictSet_self cols _ _, hs, hipo, harpo, hrouto,
          hwifio, hotho⟩
      · intro hno
        exact absurd rfl (hno kvs)
    | arr xs =>
      have hout : applyHasher hash_network_config "NetworkConfigCollector"
          cols = some cols := by
        simp [applyHasher, hv, hash_network_config_arr_of_wf xs hwf,
          dictSet_lookup_eq hv]
      refine ⟨cols, hout, rfl, fun g _ => rfl, ?_, fun _ => rfl⟩
      intro kvs hkvs
      exact absurd hkvs (by simp)
    | null =>
      refine ⟨cols, by simp [applyHasher, hv], rfl, fun g _ => rfl, ?_,
        fun _ => rfl⟩
      intro kvs hkvs
      exact absurd hkvs (by simp)
    | bool b =>
      refine ⟨cols, by simp [applyHasher, hv], rfl, fun g _ => rfl, ?_,
        fun _ => rfl⟩
      intro kvs hkvs
      exact absurd hkvs (by simp)
    | num n =>
      refine ⟨cols, by simp [applyHasher, hv], rfl, fun g _ => rfl, ?_,
        fun _ => rfl⟩
      intro kvs hkvs
      exact absurd hkvs (by simp)
    | str s =>
      refine ⟨cols, by simp [applyHasher, hv], rfl, fun g _ => rfl, ?_,
        fun _ => rfl⟩
      intro kvs hkvs
      exact absurd hkvs (by simp)

theorem applyHasher_ssh_spec (cols : JDict)
    (hwf : (match lookupJ cols "SSHConfigCollector" with
            | some v => sshEntryWF v
            | none => true) = true) :
    ∃ out,
      applyHasher hash_ssh_config "SSHConfigCollector" cols = some out
      ∧ shapeOfObj out = shapeOfObj cols
      ∧ (∀ g, g ≠ "SSHConfigCollector" → lookupJ out g = lookupJ cols g)
      ∧ (∀ kvs,
          lookupJ cols "SSHConfigCollector" = some (.obj kvs) →
          ∃ sout,
            lookupJ out "SSHConfigCollector" = some (.obj sout)
            ∧ shapeOfObj sout = shapeOfObj kvs
            ∧ lookupJ sout "known_hosts"
              = (lookupJ kvs "known_hosts").map listTransform
            ∧ (∀ g, g ≠ "known_hosts" → lookupJ sout g = lookupJ kvs g))
      ∧ ((∀ kvs, lookupJ cols "SSHConfigCollector" ≠ some (.obj kvs)) →
          out = cols) := by
  cases hv : lookupJ cols "SSHConfigCollector" with
  | none =>
    refine ⟨cols, by simp [applyHasher, hv], rfl, fun g _ => rfl, ?_,
      fun _ => rfl⟩
    intro kvs hkvs
    exact absurd hkvs (by simp)
  | some v =>
    rw [hv] at hwf
    cases v with
    | obj kvs =>
      obtain ⟨sout, he, hs, hkho, hotho⟩ := hash_ssh_config_obj_spec kvs hwf
      refine ⟨dictSet cols "SSHConfigCollector" (.obj sout), ?_, ?_, ?_, ?_, ?_⟩
      · simp [applyHasher, hv, he]
      · exact shapeOfObj_dictSet cols _ (.obj kvs) _ hv
          (by simp [shapeOf, hs])
      · intro g hg
        exact lookupJ_dictSet_other cols _ g _ hg
      · intro kvs2 hkvs2
        injection hkvs2 with hkvs2
        injection hkvs2 with hkvs2
        subst hkvs2
        exact ⟨sout, lookupJ_dictSet_self cols _ _, hs, hkho, hotho⟩
      · intro hno
        exact absurd rfl (hno kvs)
    | arr xs =>
      have hout : applyHasher hash_ssh_config "SSHConfigCollector" cols
          = some cols := by
        simp [applyHasher, hv, hash_ssh_config_arr_of_wf xs hwf,
          dictSet_lookup_eq hv]
      refine ⟨cols, hout, rfl, fun g _ => rfl, ?_, fun _ => rfl⟩
      intro kvs hkvs
      exact absurd hkvs (by simp)
    | null =>
      refine ⟨cols, by simp [applyHasher, hv], rfl, fun g _ => rfl, ?_,
        fun _ => rfl⟩
      intro kvs hkvs
      exact absurd hkvs (by simp)
    | bool b =>
      refine ⟨cols, by simp [applyHasher, hv], rfl, fun g _ => rfl, ?_,
        fun _ => rfl⟩
      intro kvs hkvs
      exact absurd hkvs (by simp)
    | num n =>
      refine ⟨cols, by simp [applyHasher, hv], rfl, fun g _ => rfl, ?_,
        fun _ => rfl⟩
      intro kvs hkvs
      exact absurd hkvs (by simp)
    | str s =>
      refine ⟨cols, by simp [applyHasher, hv], rfl, fun g _ => rfl, ?_,
        fun _ => rfl⟩
      intro kvs hkvs
      exact absurd hkvs (by simp)

theorem applyHasher_hosts_spec (cols : JDict)
    (hwf : (match lookupJ cols "HostsFileCollector" with
            | some v => hostsEntryWF v
            | none => true) = true) :
    ∃ out,
      applyHasher hash_hosts_file "HostsFileCollector" cols = some out
      ∧ shapeOfObj out = shapeOfObj cols
      ∧ (∀ g, g ≠ "HostsFileCollector" → lookupJ out g = lookupJ cols g)
      ∧ (∀ xs,
          lookupJ cols "HostsFileCollector" = some (.arr xs) →
          lookupJ out "HostsFileCollector" = some (.arr (xs.map jHostsLeaf)))
      ∧ ((∀ xs, lookupJ cols "HostsFileCollector" ≠ some (.arr xs)) →
          out = cols) := by
  cases hv : lookupJ cols "HostsFileCollector" with
  | none =>
    refine ⟨cols, by simp [applyHasher, hv], rfl, fun g _ => rfl, ?_,
      fun _ => rfl⟩
    intro xs hxs
    exact absurd hxs (by simp)
  | some v =>
    rw [hv] at hwf
    cases v with
    | arr xs =>
      have hall : allStr xs = true := hwf
      refine ⟨dictSet cols "HostsFileCollector" (.arr (xs.map jHostsLeaf)),
        ?_, ?_, ?_, ?_, ?_⟩
      · simp [applyHasher, hv, hash_hosts_file_arr_spec xs hall]
      · exact shapeOfObj_dictSet cols _ (.arr xs) _ hv
          (by simp [shapeOf, shapeOfList_map_jHostsLeaf hall])
      · intro g hg
        exact lookupJ_dictSet_other cols _ g _ hg
      · intro xs2 hxs2
        injection hxs2 with hxs2
        injection hxs2 with hxs2
        subst hxs2
        exact lookupJ_dictSet_self cols _ _
      · intro hno
        exact absurd rfl (hno xs)
    | obj kvs =>
      exact absurd hwf (by simp [hostsEntryWF])
    | null =>
      refine ⟨cols, by simp [applyHasher, hv], rfl, fun g _ => rfl, ?_,
        fun _ => rfl⟩
      intro xs hxs
      exact absurd hxs (by simp)
    | bool b =>
      refine ⟨cols, by simp [applyHasher, hv], rfl, fun g _ => rfl, ?_,
        fun _ => rfl⟩
      intro xs hxs
      exact absurd hxs (by simp)
    | num n =>
      refine ⟨cols, by simp [applyHasher, hv], rfl, fun g _ => rfl, ?_,
        fun _ => rfl⟩
      intro xs hxs
      exact absurd hxs (by simp)
    | str s =>
      refine ⟨cols, by simp [applyHasher, hv], rfl, fun g _ => rfl, ?_,
        fun _ => rfl⟩
      intro xs hxs
      exact absurd hxs (by simp)

theorem hash_fingerprint_data_id_of_not_obj {data : JDict}
    (h : ∀ cols, lookupJ data "collectors" ≠ some (.obj cols)) :
    hash_fingerprint_data data = some data ∧ collectorsOf data = [] := by
  unfold hash_fingerprint_data collectorsOf
  cases hc : lookupJ data "collectors" with
  | none => exact ⟨rfl, rfl⟩
  | some v =>
    cases v with
    | obj cols => exact absurd hc (h cols)
    | null => exact ⟨rfl, rfl⟩
    | bool b => exact ⟨rfl, rfl⟩
    | num n => exact ⟨rfl, rfl⟩
    | str s => exact ⟨rfl, rfl⟩
    | arr xs => exact ⟨rfl, rfl⟩

/-- C5 (amended): for every fingerprint document whose registered
sensitive entries have the container kinds the redaction rules expect and
carry only string leaves at the registered positions,
`hash_fingerprint_data` returns (it raises on other documents, and on a
document with a falsy non-string registered leaf it rewrites that leaf to
`""` — see the counterexample theorem) a new document of identical shape
(same keys, same container type at every position, lists keeping their
length); every top-level key other than `collectors` is unchanged; every
collector entry without a registered rule is unchanged; and within the
three registered collectors exactly the registered leaf positions are
rewritten through `hash_sensitive_value`, all other fields being
unchanged.  (The embedding is a pure function, so the input document
itself is unchanged by construction, matching the `.copy()`-based
implementation that never mutates its argument.) -/
theorem hash_fingerprint_data_spec (data : JDict)
    (hwf : sensitiveWF data = true) :
    ∃ r, hash_fingerprint_data data = some r
      ∧ shapeOfObj r = shapeOfObj data
      ∧ (∀ k, k ≠ "collectors" → lookupJ r k = lookupJ data k)
      ∧ (∀ n, n ≠ "NetworkConfigCollector" → n ≠ "SSHConfigCollector" →
          n ≠ "HostsFileCollector" →
          lookupJ (collectorsOf r) n = lookupJ (collectorsOf data) n)
      ∧ (∀ kvs,
          lookupJ (collectorsOf data) "NetworkConfigCollector"
            = some (.obj kvs) →
          ∃ nout,
            lookupJ (collectorsOf r) "NetworkConfigCollector"
              = some (.obj nout)
            ∧ shapeOfObj nout = shapeOfObj kvs
            ∧ lookupJ nout "ip_addresses"
              = (lookupJ kvs "ip_addresses").map ipTransform
            ∧ lookupJ nout "arp_cache"
              = (lookupJ kvs "arp_cache").map listTransform
            ∧ lookupJ nout "routing_table"
              = (lookupJ kvs "routing_table").map listTransform
            ∧ lookupJ nout "wifi_networks"
              = (lookupJ kvs "wifi_networks").map listTransform
            ∧ (∀ g, g ≠ "ip_addresses" → g ≠ "arp_cache" →
                g ≠ "routing_table" → g ≠ "wifi_networks" →
                lookupJ nout g = lookupJ kvs g))
      ∧ (∀ kvs,
          lookupJ (collectorsOf data) "SSHConfigCollector" = some (.obj kvs) →
          ∃ sout,
            lookupJ (collectorsOf r) "SSHConfigCollector" = some (.obj sout)
            ∧ shapeOfObj sout = shapeOfObj kvs
            ∧ lookupJ sout "known_hosts"
              = (lookupJ kvs "known_hosts").map listTransform
            ∧ (∀ g, g ≠ "known_hosts" → lookupJ sout g = lookupJ kvs g))
      ∧ (∀ xs,
          lookupJ (collectorsOf data) "HostsFileCollector" = some (.arr xs) →
          lookupJ (collectorsOf r) "HostsFileCollector"
            = some (.arr (xs.map jHostsLeaf))) := by
  by_cases hobj : ∃ cols, lookupJ data "collectors" = some (.obj cols)
  · obtain ⟨cols, hcol⟩ := hobj
    unfold sensitiveWF at hwf
    rw [hcol] at hwf
    simp only [Bool.and_eq_true] at hwf
    obtain ⟨⟨hnet, hssh⟩, hhosts⟩ := hwf
    obtain ⟨c1, he1, hs1, hoth1, hobj1, _⟩ := applyHasher_net_spec cols hnet
    have hssh1 : (match lookupJ c1 "SSHConfigCollector" with
        | some v => sshEntryWF v
        | none => true) = true := by
      rw [hoth1 "SSHConfigCollector" (by decide)]
      exact hssh
    obtain ⟨c2, he2, hs2, hoth2, hobj2, _⟩ := applyHasher_ssh_spec c1 hssh1
    have hhosts2 : (match lookupJ c2 "HostsFileCollector" with
        | some v => hostsEntryWF v
        | none => true) = true := by
      rw [hoth2 "HostsFileCollector" (by decide),
        hoth1 "HostsFileCollector" (by decide)]
      exact hhosts
    obtain ⟨c3, he3, hs3, hoth3, harr3, _⟩ := applyHasher_hosts_spec c2 hhosts2
    have hcold : collectorsOf data = cols := by
      unfold collectorsOf
      rw [hcol]
    refine ⟨dictSet data "collectors" (.obj c3), ?_, ?_, ?_, ?_, ?_, ?_, ?_⟩
    · simp [hash_fingerprint_data, hcol, he1, he2, he3]
    · exact shapeOfObj_dictSet data _ (.obj cols) _ hcol
        (by simp [shapeOf, hs3.trans (hs2.trans hs1)])
    · intro k hk
      exact lookupJ_dictSet_other data _ k _ hk
    · intro n h1 h2 h3
      have hcollr : collectorsOf (dictSet data "collectors" (.obj c3))
          = c3 := by
        unfold collectorsOf
        rw [lookupJ_dictSet_self]
      rw [hcollr, hcold, hoth3 n h3, hoth2 n h2, hoth1 n h1]
    · intro kvs hkvs
      rw [hcold] at hkvs
      obtain ⟨nout, hno, hrest⟩ := hobj1 kvs hkvs
      have hcollr : collectorsOf (dictSet data "collectors" (.obj c3))
          = c3 := by
        unfold collectorsOf
        rw [lookupJ_dictSet_self]
      refine ⟨nout, ?_, hrest⟩
      rw [hcollr, hoth3 _ (by decide), hoth2 _ (by decide)]
      exact hno
    · intro kvs hkvs
      rw [hcold] at hkvs
      have hkvs1 : lookupJ c1 "SSHConfigCollector" = some (.obj kvs) := by
        rw [hoth1 _ (by decide)]
        exact hkvs
      obtain ⟨sout, hso, hrest⟩ := hobj2 kvs hkvs1
      have hcollr : collectorsOf (dictSet data "collectors" (.obj c3))
          = c3 := by
        unfold collectorsOf
        rw [lookupJ_dictSet_self]
      refine ⟨sout, ?_, hrest⟩
      rw [hcollr, hoth3 _ (by decide)]
      exact hso
    · intro xs hxs
      rw [hcold] at hxs
      have hxs2 : lookupJ c2 "HostsFileCollector" = some (.arr xs) := by
        rw [hoth2 _ (by decide), hoth1 _ (by decide)]
        exact hxs
      have hcollr : collectorsOf (dictSet data "collectors" (.obj c3))
          = c3 := by
        unfold collectorsOf
        rw [lookupJ_dictSet_self]
      rw [hcollr]
      exact harr3 xs hxs2
  · push_neg at hobj
    obtain ⟨hid, hemp⟩ := hash_fingerprint_data_id_of_not_obj hobj
    refine ⟨data, hid, rfl, fun k _ => rfl, fun n _ _ _ => rfl, ?_, ?_, ?_⟩
    · intro kvs hkvs
      rw [hemp] at hkvs
      exact absurd hkvs (by simp [lookupJ])
    · intro kvs hkvs
      rw [hemp] at hkvs
      exact absurd hkvs (by simp [lookupJ])
    · intro xs hxs
      rw [hemp] at hxs
      exact absurd hxs (by simp [lookupJ])

/-- C5 counterexample: on the fingerprint document
`{"collectors": {"NetworkConfigCollector": {"arp_cache": [None]}}}` the
redaction pass returns a document in which the `None` (non-string) leaf
has been replaced by the string `""` (the `else ""` arm of the
comprehension), so `hash_fingerprint_data` neither preserves the kind of
every leaf nor replaces only string leaves, refuting the claim as
universally stated. -/
theorem hash_fingerprint_data_counterexample :
    hash_fingerprint_data
        [("collectors", .obj [("NetworkConfigCollector",
          .obj [("arp_cache", .arr [.null])])])]
      = some [("collectors", .obj [("NetworkConfigCollector",
          .obj [("arp_cache", .arr [.str ""])])])]
    ∧ ((hash_fingerprint_data
        [("collectors", .obj [("NetworkConfigCollector",
          .obj [("arp_cache", .arr [.null])])])]).map
        (fun r => decide (shapeOfObj r = shapeOfObj
          [("collectors", .obj [("NetworkConfigCollector",
            .obj [("arp_cache", .arr [.null])])])])))
      = some false := by
  constructor
  · decide
  · decide

/-- Witness for `hash_fingerprint_data_spec` at a concrete well-formed
document. -/
theorem hash_fingerprint_data_spec_witness :
    ∃ r, hash_fingerprint_data
        [("collectors", .obj [("NetworkConfigCollector",
          .obj [("arp_cache", .arr [.str "a"])])])]
      = some r
      ∧ shapeOfObj r = shapeOfObj
        [("collectors", .obj [("NetworkConfigCollector",
          .obj [("arp_cache", .arr [.str "a"])])])] :=
  (hash_fingerprint_data_spec
      [("collectors", .obj [("NetworkConfigCollector",
        .obj [("arp_cache", .arr [.str "a"])])])]
      (by decide)).elim
    (fun r hr => ⟨r, hr.1, hr.2.1⟩)

/-! ### Encryption envelope (`FingerprintEncryption`)

AES-256-GCM and PBKDF2 are external library primitives and are modelled
symbolically: a derived key is determined by the password and salt, a
ciphertext records the key and nonce it was produced under together with
the serialized plaintext, and authenticated decryption returns the
plaintext exactly under the same key and nonce, failing otherwise — the
authenticity guarantee AES-GCM provides.  The canonical-JSON
serialize/parse round trip inside encrypt/decrypt is the identity on the
embedded document.  The random salt and nonce (`secrets.token_bytes`)
enter as parameters, and the theorems hold for every choice. -/

/-- A PBKDF2-derived AES key, determined by password and salt. -/
structure DerivedKey where
  password : String
  salt : Nat
deriving DecidableEq

/-- A symbolic AES-GCM ciphertext. -/
structure SymCiphertext where
  key : DerivedKey
  nonce : Nat
  plaintext : JValue
deriving DecidableEq

/-- Symbolic `AESGCM(key).encrypt(nonce, plaintext, None)`. -/
def aesgcmEncrypt (key : DerivedKey) (nonce : Nat) (pt : JValue) :
    SymCiphertext := ⟨key, nonce, pt⟩

/-- Symbolic `AESGCM(key).decrypt(nonce, ct, None)`: succeeds exactly
under the key and nonce used to produce the ciphertext. -/
def aesgcmDecrypt (key : DerivedKey) (nonce : Nat) (ct : SymCiphertext) :
    Option JValue :=
  if ct.key = key ∧ ct.nonce = nonce then some ct.plaintext else none

/-- The at-rest envelope `{encrypted_data, nonce, salt, version}`. -/
structure Envelope where
  encrypted_data : SymCiphertext
  nonce : Nat
  salt : Nat
  version : String
deriving DecidableEq

/-- A constructed encryptor (a validated, non-empty password). -/
structure FingerprintEncryption where
  password : String
deriving DecidableEq

/-- `FingerprintEncryption.__init__`: a falsy password (absent or
empty) raises `ValueError` before any key derivation or encryption is
attempted; otherwise the password is stored and no cryptographic work
happens at construction. -/
def mkFingerprintEncryption (password : Option String) :
    Except String FingerprintEncryption :=
  match password with
  | none => .error "A password is required for encryption."
  | some p =>
    if p = "" then .error "A password is required for encryption."
    else .ok ⟨p⟩

/-- `_derive_key`: PBKDF2-HMAC-SHA256, 100000 iterations, symbolic. -/
def derive_key (password : String) (salt : Nat) : DerivedKey :=
  ⟨password, salt⟩

/-- `encrypt(data)` with the fresh random `salt` and `nonce` as
parameters. -/
def fpEncrypt (e : FingerprintEncryption) (salt nonce : Nat)
    (data : JValue) : Envelope :=
  { encrypted_data := aesgcmEncrypt (derive_key e.password salt) nonce data
    nonce := nonce
    salt := salt
    version := "1.0" }

/-- `decrypt(encrypted_data)`: derives the key from the envelope's salt
and the receiver's password; every failure surfaces as the single
uniform `ValueError` (the library's `InvalidTag` carries no further
data). -/
def fpDecrypt (e : FingerprintEncryption) (env : Envelope) :
    Except String JValue :=
  match aesgcmDecrypt (derive_key e.password env.salt) env.nonce
      env.encrypted_data with
  | some pt => .ok pt
  | none => .error "Decryption failed: InvalidTag"

/-- C4: constructing the encryptor with an absent or empty password
fails with the validation error before any cryptographic work; with any
non-empty password, the encrypt→decrypt round trip under the same
password returns the original document unchanged for every salt and
nonce; and decrypting under any different password yields the single
uniform decryption error, never a document. -/
theorem fingerprint_encryption_spec :
    mkFingerprintEncryption none
      = .error "A password is required for encryption."
    ∧ mkFingerprintEncryption (some "")
      = .error "A password is required for encryption."
    ∧ (∀ p : String, p ≠ "" → mkFingerprintEncryption (some p) = .ok ⟨p⟩)
    ∧ (∀ (p : String) (salt nonce : Nat) (d : JValue),
        fpDecrypt ⟨p⟩ (fpEncrypt ⟨p⟩ salt nonce d) = .ok d)
    ∧ (∀ (p p' : String) (salt nonce : Nat) (d : JValue), p' ≠ p →
        fpDecrypt ⟨p'⟩ (fpEncrypt ⟨p⟩ salt nonce d)
          = .error "Decryption failed: InvalidTag") := by
  refine ⟨rfl, rfl, ?_, ?_, ?_⟩
  · intro p hp
    simp [mkFingerprintEncryption, hp]
  · intro p salt nonce d
    simp [fpDecrypt, fpEncrypt, aesgcmDecrypt, aesgcmEncrypt, derive_key]
  · intro p p' salt nonce d hne
    have hkey : (⟨p, salt⟩ : DerivedKey) ≠ ⟨p', salt⟩ := by
      intro h
      injection h with h1 _
      exact hne h1.symm
    simp [fpDecrypt, fpEncrypt, aesgcmDecrypt, aesgcmEncrypt, derive_key,
      hkey]

/-- Witness for `fingerprint_encryption_spec` at concrete passwords and
a concrete document. -/
theorem fingerprint_encryption_spec_witness :
    fpDecrypt ⟨"pw"⟩ (fpEncrypt ⟨"pw"⟩ 1 2 (.obj [("a", .num 1)]))
      = .ok (.obj [("a", .num 1)])
    ∧ fpDecrypt ⟨"other"⟩ (fpEncrypt ⟨"pw"⟩ 1 2 (.obj [("a", .num 1)]))
      = .error "Decryption failed: InvalidTag"
    ∧ mkFingerprintEncryption (some "pw") = .ok ⟨"pw"⟩ :=
  ⟨fingerprint_encryption_spec.2.2.2.1 "pw" 1 2 (.obj [("a", .num 1)]),
   fingerprint_encryption_spec.2.2.2.2 "pw" "other" 1 2
     (.obj [("a", .num 1)]) (by decide),
   fingerprint_encryption_spec.2.2.1 "pw" (by decide)⟩

/-! ### Storage (`core/storage.py`)

File I/O and the outer JSON parse are outside the embedded model: the
serialize-to-file / read-and-parse round trip is the identity on the
embedded document (Python's behaviour for the JSON-representable
documents the claims quantify over), so the unencrypted save branch is a
function from the document to the document a later load parses, and the
unencrypted load branch maps the parsed document to the returned
document together with the integrity-warning flag. -/

def defaultIntegrityKey : String := "macos-fingerprint-integrity-v1"

/-- `_derive_hmac_key` (PBKDF2 with a fixed distinct salt): symbolic. -/
def derive_hmac_key (password : String) : String :=
  "pbkdf2-hmac-key:" ++ password

/-- HMAC-SHA256 over the serialized document (external primitive,
symbolic: determined by key and message). -/
def hmacSha256 (key msg : String) : String :=
  "hmac-sha256:" ++ key ++ ":" ++ msg

/-- `compute_integrity_hash(data, password)`: a password-derived key when
the password is truthy, the fixed application key otherwise; the message
is the canonical (sorted-key) serialization of the document. -/
def compute_integrity_hash (data : JDict) (password : Option String) :
    String :=
  let key := match password with
    | some p => if p = "" then defaultIntegrityKey else derive_hmac_key p
    | none => defaultIntegrityKey
  hmacSha256 key (dumps (.obj data))

/-- The unencrypted branch of `save_fingerprint`: a copy of the document
with the integrity tag of the original document assigned under
`_integrity_hash`. -/
def save_fingerprint_plain (fingerprint : JDict)
    (password : Option String) : JDict :=
  dictSet fingerprint "_integrity_hash"
    (.str (compute_integrity_hash fingerprint password))

/-- The unencrypted branch of `load_fingerprint` after a successful read
and parse: when the tag is present it is popped, recomputed over the
remaining document and compared — a mismatch produces only a warning
(the flag) and the document is still returned; with no tag the document
is returned unchanged with no warning.  The branch returns in every
case (`some`), mirroring that this code path cannot raise. -/
def load_fingerprint_plain (data : JDict) (password : Option String) :
    Option (JDict × Bool) :=
  if "_integrity_hash" ∈ dictKeys data then
    let stored := lookupJ data "_integrity_hash"
    let rest := dictRemove data "_integrity_hash"
    some (rest,
      decide (stored ≠ some (.str (compute_integrity_hash rest password))))
  else
    some (data, false)

/-- C9: on an unencrypted document carrying an `_integrity_hash` tag,
load recomputes the tag over the document without the tag field and
compares: a mismatch yields only a warning and the document (never a
hard failure or a `None` result), a match yields the document with no
warning; with no tag the document is returned unchanged with no warning;
the unencrypted load branch always returns a document; and
`compute_integrity_hash` is deterministic. -/
theorem load_fingerprint_integrity_spec :
    (∀ (data : JDict) (pwd : Option String),
      "_integrity_hash" ∈ dictKeys data →
      lookupJ data "_integrity_hash"
          ≠ some (.str (compute_integrity_hash
              (dictRemove data "_integrity_hash") pwd)) →
      load_fingerprint_plain data pwd
        = some (dictRemove data "_integrity_hash", true))
    ∧ (∀ (data : JDict) (pwd : Option String),
        "_integrity_hash" ∈ dictKeys data →
        lookupJ data "_integrity_hash"
            = some (.str (compute_integrity_hash
                (dictRemove data "_integrity_hash") pwd)) →
        load_fingerprint_plain data pwd
          = some (dictRemove data "_integrity_hash", false))
    ∧ (∀ (data : JDict) (pwd : Option String),
        "_integrity_hash" ∉ dictKeys data →
        load_fingerprint_plain data pwd = some (data, false))
    ∧ (∀ (data : JDict) (pwd : Option String),
        (load_fingerprint_plain data pwd).isSome = true)
    ∧ (∀ (data : JDict) (pwd : Option String),
        compute_integrity_hash data pwd = compute_integrity_hash data pwd) := by
  refine ⟨?_, ?_, ?_, ?_, fun _ _ => rfl⟩
  · intro data pwd hmem hne
    simp [load_fingerprint_plain, hmem, hne]
  · intro data pwd hmem heq
    simp [load_fingerprint_plain, hmem, heq]
  · intro data pwd hmem
    simp [load_fingerprint_plain, hmem]
  · intro data pwd
    unfold load_fingerprint_plain
    by_cases hmem : "_integrity_hash" ∈ dictKeys data <;> simp [hmem]

/-- Witness for `load_fingerprint_integrity_spec`: a concrete tampered
document is still returned, with the warning flag set. -/
theorem load_fingerprint_integrity_spec_witness :
    load_fingerprint_plain
        [("a", .num 1), ("_integrity_hash", .str "bogus")] none
      = some ([("a", .num 1)], true) :=
  load_fingerprint_integrity_spec.1
    [("a", .num 1), ("_integrity_hash", .str "bogus")] none
    (by decide) (by decide)

theorem dictSet_append_of_not_mem {kvs : JDict} {k : String} (v : JValue)
    (h : k ∉ dictKeys kvs) : dictSet kvs k v = kvs ++ [(k, v)] := by
  induction kvs with
  | nil => rfl
  | cons p rest ih =>
    rcases p with ⟨k', v'⟩
    have hk : k' ≠ k := by
      intro he
      exact h (by simp [dictKeys, he])
    have hrest : k ∉ dictKeys rest := by
      intro hm
      exact h (List.mem_cons_of_mem _ hm)
    simp [dictSet, hk, ih hrest]

theorem mem_keys_append_single (kvs : JDict) (k : String) (v : JValue) :
    k ∈ dictKeys (kvs ++ [(k, v)]) := by
  simp [dictKeys]

theorem lookupJ_append_single {kvs : JDict} {k : String} (v : JValue)
    (h : k ∉ dictKeys kvs) : lookupJ (kvs ++ [(k, v)]) k = some v := by
  induction kvs with
  | nil => simp [lookupJ]
  | cons p rest ih =>
    rcases p with ⟨k', v'⟩
    have hk : k' ≠ k := by
      intro he
      exact h (by simp [dictKeys, he])
    have hrest : k ∉ dictKeys rest := by
      intro hm
      exact h (List.mem_cons_of_mem _ hm)
    simp [lookupJ, hk, ih hrest]

theorem dictRemove_append_single {kvs : JDict} {k : String} (v : JValue)
    (h : k ∉ dictKeys kvs) : dictRemove (kvs ++ [(k, v)]) k = kvs := by
  induction kvs with
  | nil => simp [dictRemove]
  | cons p rest ih =>
    rcases p with ⟨k', v'⟩
    have hk : k' ≠ k := by
      intro he
      exact h (by simp [dictKeys, he])
    have hrest : k ∉ dictKeys rest := by
      intro hm
      exact h (List.mem_cons_of_mem _ hm)
    simp only [dictRemove] at ih ⊢
    rw [List.cons_append, List.filter_cons_of_pos (by simp [hk])]
    rw [ih hrest]

/-- C10 (amended): for every document that does not itself carry an
`_integrity_hash` top-level key, saving unencrypted and loading back
returns the document unchanged — the tag added by save is popped during
load, so the returned document never contains it — whatever passwords
are used on each side; and when the two passwords agree the load also
raises no integrity warning. -/
theorem save_load_roundtrip_spec
    (d : JDict) (pwd pwd' : Option String)
    (h : "_integrity_hash" ∉ dictKeys d) :
    (∃ warn, load_fingerprint_plain (save_fingerprint_plain d pwd) pwd'
        = some (d, warn))
    ∧ (pwd' = pwd →
        load_fingerprint_plain (save_fingerprint_plain d pwd) pwd
          = some (d, false)) := by
  have hsave : save_fingerprint_plain d pwd
      = d ++ [("_integrity_hash",
          .str (compute_integrity_hash d pwd))] := by
    unfold save_fingerprint_plain
    exact dictSet_append_of_not_mem _ h
  have hmem := mem_keys_append_single d "_integrity_hash"
    (.str (compute_integrity_hash d pwd))
  have hlook := lookupJ_append_single
    (JValue.str (compute_integrity_hash d pwd)) h
  have hrem := dictRemove_append_single
    (JValue.str (compute_integrity_hash d pwd)) h
  constructor
  · refine ⟨decide (some (JValue.str (compute_integrity_hash d pwd))
      ≠ some (JValue.str (compute_integrity_hash d pwd'))), ?_⟩
    rw [hsave]
    simp only [load_fingerprint_plain, hmem, if_true, hlook, hrem]
  · intro hpw
    subst hpw
    rw [hsave]
    simp only [load_fingerprint_plain, hmem, if_true, hlook, hrem]
    simp

/-- Witness for `save_load_roundtrip_spec` at a concrete document. -/
theorem save_load_roundtrip_spec_witness :
    load_fingerprint_plain
        (save_fingerprint_plain [("a", .num 1)] (some "pw")) (some "pw")
      = some ([("a", .num 1)], false) :=
  (save_load_roundtrip_spec [("a", .num 1)] (some "pw") (some "pw")
    (by decide)).2 rfl

/-- C10 counterexample: on a document that already contains an
`_integrity_hash` key, save overwrites it and load pops it, so the
round trip does not return a document deep-equal to the input — the
claim fails as stated for every JSON-representable document. -/
theorem save_load_roundtrip_counterexample :
    (load_fingerprint_plain (save_fingerprint_plain
        [("_integrity_hash", .str "x")] none) none).map Prod.fst
      = some []
    ∧ ([] : JDict) ≠ [("_integrity_hash", JValue.str "x")] := by
  constructor
  · decide
  · decide

/-! ### Collector registry (`collectors/base.py`)

A collector's `collect()` either returns a result or raises; collectors
are independent and share no state, so one registered collector is one
behaviour.  The registry's dict is keyed by collector name (names are
unique).  In parallel mode every collector is submitted to the pool and
results are inserted in completion order, an arbitrary permutation of
the registry; the theorems quantify over every completion order.  The
progress callback only reports progress — its exceptions are swallowed —
and does not affect the results.  The embedded `collect_all` is a total
function: no exception a collector raises escapes it. -/

/-- Result from a collector execution (`CollectorResult`). -/
structure CollectorResult where
  success : Bool
  data : JValue
  error : Option String
  collector_name : Option String
deriving DecidableEq

/-- What one `collect()` call does: return a result or raise. -/
inductive CollectBehavior where
  | returns (r : CollectorResult)
  | throws (msg : String)
deriving DecidableEq

/-- A registered collector. -/
structure Collector where
  name : String
  behavior : CollectBehavior
deriving DecidableEq

/-- `safe_collect`: a raising `collect()` becomes
`CollectorResult(success=False, data=None, error=str(e),
collector_name=self.name)` instead of propagating. -/
def safe_collect (c : Collector) : CollectorResult :=
  match c.behavior with
  | .returns r => r
  | .throws msg => ⟨false, .null, some msg, some c.name⟩

/-- Sequential `collect_all`: results inserted in registration order. -/
def collect_all_seq (registry : List Collector) :
    List (String × CollectorResult) :=
  registry.map (fun c => (c.name, safe_collect c))

/-- Parallel `collect_all`, given the order in which the futures
complete.  The per-future `try/except` in the source additionally
converts an exception escaping a worker into a failed result, but
`safe_collect` already catches everything `collect()` raises, so each
future yields `safe_collect` of its collector. -/
def collect_all_par (completion : List Collector) :
    List (String × CollectorResult) :=
  completion.map (fun c => (c.name, safe_collect c))

/-- Lookup in a results map. -/
def lookupResult (rs : List (String × CollectorResult)) (k : String) :
    Option CollectorResult :=
  match rs with
  | [] => none
  | (k', v) :: rest => if k' = k then some v else lookupResult rest k

theorem lookupResult_map_of_mem {l : List Collector} {c : Collector}
    (hnd : (l.map Collector.name).Nodup) (hc : c ∈ l) :
    lookupResult (l.map (fun c => (c.name, safe_collect c))) c.name
      = some (safe_collect c) := by
  induction l with
  | nil => simp at hc
  | cons c' rest ih =>
    simp only [List.map_cons, List.nodup_cons] at hnd
    obtain ⟨hname, hndrest⟩ := hnd
    rcases List.mem_cons.mp hc with hceq | hcrest
    · subst hceq
      simp [lookupResult]
    · have hne : c'.name ≠ c.name := by
        intro he
        exact hname (he ▸ List.mem_map_of_mem Collector.name hcrest)
      simp only [List.map_cons, lookupResult, hne, if_false]
      exact ih hndrest hcrest

/-- C6: with any registry of uniquely named collectors, `collect_all`
never raises (it is a total function of the registry) and returns one
`(name, outcome)` entry per registered collector, in both sequential
and parallel mode (the latter for every completion order); a collector
whose `collect()` raises contributes a `success = false` outcome
carrying the exception text, and every other collector's outcome is
still present. -/
theorem collect_all_spec (registry : List Collector)
    (hnd : (registry.map Collector.name).Nodup) :
    ((collect_all_seq registry).map Prod.fst = registry.map Collector.name
    ∧ (∀ c ∈ registry,
        lookupResult (collect_all_seq registry) c.name
          = some (safe_collect c)))
    ∧ (∀ completion : List Collector, completion.Perm registry →
        (collect_all_par completion).length = registry.length
        ∧ (∀ c ∈ registry,
            lookupResult (collect_all_par completion) c.name
              = some (safe_collect c)))
    ∧ (∀ c ∈ registry, ∀ msg, c.behavior = .throws msg →
        lookupResult (collect_all_seq registry) c.name
          = some ⟨false, .null, some msg, some c.name⟩
        ∧ ∀ completion : List Collector, completion.Perm registry →
            lookupResult (collect_all_par completion) c.name
              = some ⟨false, .null, some msg, some c.name⟩) := by
  have hpar : ∀ completion : List Collector, completion.Perm registry →
      ∀ c ∈ registry,
        lookupResult (collect_all_par completion) c.name
          = some (safe_collect c) := by
    intro completion hperm c hc
    have hndc : (completion.map Collector.name).Nodup :=
      ((hperm.map Collector.name).nodup_iff).mpr hnd
    exact lookupResult_map_of_mem hndc (hperm.mem_iff.mpr hc)
  refine ⟨⟨?_, ?_⟩, ?_, ?_⟩
  · simp [collect_all_seq]
  · intro c hc
    exact lookupResult_map_of_mem hnd hc
  · intro completion hperm
    refine ⟨?_, hpar completion hperm⟩
    simp [collect_all_par, hperm.length_eq]
  · intro c hc msg hmsg
    have hsafe : safe_collect c = ⟨false, .null, some msg, some c.name⟩ := by
      simp [safe_collect, hmsg]
    constructor
    · unfold collect_all_seq
      rw [lookupResult_map_of_mem hnd hc, hsafe]
    · intro completion hperm
      rw [hpar completion hperm c hc, hsafe]

/-- Witness for `collect_all_spec`: a two-collector registry where one
collector raises; both outcomes are present in both modes, the raising
one as a failed outcome with the exception text. -/
theorem collect_all_spec_witness :
    lookupResult (collect_all_seq
        [⟨"Good", .returns ⟨true, .str "ok", none, none⟩⟩,
         ⟨"Bad", .throws "boom"⟩])
      "Bad" = some ⟨false, .null, some "boom", some "Bad"⟩
    ∧ lookupResult (collect_all_par
        [⟨"Bad", .throws "boom"⟩,
         ⟨"Good", .returns ⟨true, .str "ok", none, none⟩⟩])
      "Good" = some ⟨true, .str "ok", none, none⟩ :=
  ⟨((collect_all_spec
      [⟨"Good", .returns ⟨true, .str "ok", none, none⟩⟩,
       ⟨"Bad", .throws "boom"⟩] (by decide)).2.2
      ⟨"Bad", .throws "boom"⟩ (by decide) "boom" rfl).1,
   ((collect_all_spec
      [⟨"Good", .returns ⟨true, .str "ok", none, none⟩⟩,
       ⟨"Bad", .throws "boom"⟩] (by decide)).2.1
      [⟨"Bad", .throws "boom"⟩,
       ⟨"Good", .returns ⟨true, .str "ok", none, none⟩⟩]
      (List.Perm.swap _ _ _)).2
      ⟨"Good", .returns ⟨true, .str "ok", none, none⟩⟩ (by decide)⟩
